import Mathlib

/-!
Verification of the N-queens backtracking core of `src/nqueen.py`.

The embedding models the Python class `NQueenSolver`:
* Python ints are `Int`; the `queens` list is a `List Int` with Python's
  indexing semantics (negative indices wrap, out-of-range indexing raises,
  modelled by `Option`);
* the three constraint sets `cols`, `diag1`, `diag2` are `Finset Int`
  (Python `set` of ints; `set.remove` on a missing key raises `KeyError`,
  modelled by `Option`);
* the generator `solve_generator` is modelled as a fuel-indexed function
  producing the complete (eager) list of yielded events together with the
  final state; `none` models either a raised exception or insufficient
  fuel.  All claims are about complete event sequences, so the eager list
  is a faithful view of the lazy generator.
-/

set_option maxHeartbeats 4000000
set_option maxRecDepth 4000

/-- Python list index resolution: a valid index `i` into a list of length
`len` is `i` itself when `0 ≤ i < len`, wraps to `len + i` when
`-len ≤ i < 0`, and is an `IndexError` (`none`) otherwise. -/
def pyIdx (len : Nat) (i : Int) : Option Nat :=
  if 0 ≤ i then (if i < (len : Int) then some i.toNat else none)
  else (if 0 ≤ i + (len : Int) then some (i + (len : Int)).toNat else none)

/-- Python `l[i]` for a list of ints. -/
def pyGet (l : List Int) (i : Int) : Option Int :=
  match pyIdx l.length i with
  | some j => l.get? j
  | none => none

/-- Python `l[i] = v` for a list of ints. -/
def pySet (l : List Int) (i : Int) (v : Int) : Option (List Int) :=
  match pyIdx l.length i with
  | some j => some (l.set j v)
  | none => none

/-- Events yielded by `solve_generator`: `("place", r, c)`,
`("remove", r, c)` and `("solution", snapshot)`. -/
inductive Ev where
  | place : Int → Int → Ev
  | remove : Int → Int → Ev
  | solution : List Int → Ev
deriving DecidableEq, Repr

/-- The state of a `NQueenSolver` object (`src/nqueen.py`, lines 7-12):
board size `N`, the sets `cols`, `diag1` (keys `r - c`), `diag2`
(keys `r + c`) and the assignment list `queens` (`-1` = empty row). -/
structure NQueenSolver where
  N : Int
  cols : Finset Int
  diag1 : Finset Int
  diag2 : Finset Int
  queens : List Int
deriving DecidableEq

/-- The state built by `__init__` before any initial queens are placed:
`queens = [-1] * N` (empty for `N ≤ 0`), all sets empty. -/
def emptySolver (n : Int) : NQueenSolver :=
  ⟨n, ∅, ∅, ∅, List.replicate n.toNat (-1)⟩

/-- `place_queen` (lines 18-22): `queens[r] = c` and insert `c`, `r-c`,
`r+c` into the three sets.  No precondition is checked; the only possible
failure is an `IndexError` from the list assignment. -/
def place_queen (s : NQueenSolver) (r c : Int) : Option NQueenSolver :=
  match pySet s.queens r c with
  | none => none
  | some qs => some ⟨s.N, insert c s.cols, insert (r - c) s.diag1, insert (r + c) s.diag2, qs⟩

/-- `remove_queen` (lines 24-28): `queens[r] = -1` and `set.remove` the
three keys.  `set.remove` raises `KeyError` (`none`) when the key is
absent; no other precondition is checked. -/
def remove_queen (s : NQueenSolver) (r c : Int) : Option NQueenSolver :=
  match pySet s.queens r (-1) with
  | none => none
  | some qs =>
    if c ∈ s.cols then
      if (r - c) ∈ s.diag1 then
        if (r + c) ∈ s.diag2 then
          some ⟨s.N, s.cols.erase c, s.diag1.erase (r - c), s.diag2.erase (r + c), qs⟩
        else none
      else none
    else none

/-- `is_safe` (lines 30-31): `c not in cols and (r-c) not in diag1 and
(r+c) not in diag2`. -/
def is_safe (s : NQueenSolver) (r c : Int) : Bool :=
  decide (c ∉ s.cols) && decide ((r - c) ∉ s.diag1) && decide ((r + c) ∉ s.diag2)

/-- The while loop of `solve_generator` (line 34-35):
`while row < self.N and self.queens[row] != -1: row += 1`, written with an
explicit counter `k` so that the recursion is structural; `neAux` is only
ever called with `k = N.toNat - row`, which makes the `k = 0`, `row < N`
case unreachable. -/
def neAux (n : Int) (qs : List Int) : Nat → Nat → Option Nat
  | 0, row =>
    if (row : Int) < n then none else some row
  | Nat.succ k, row =>
    if (row : Int) < n then
      match pyGet qs (row : Int) with
      | none => none
      | some v => if v = -1 then some row else neAux n qs k (row + 1)
    else some row

/-- First row `≥ row` that is not yet filled (the while loop of
`solve_generator`).  `none` models an `IndexError` while scanning. -/
def nextEmpty (n : Int) (qs : List Int) (row : Nat) : Option Nat :=
  neAux n qs (n.toNat - row) row

/-- `range(self.N)`: the column candidates `0, 1, ..., N-1` (empty for
`N ≤ 0`). -/
def colsRange (n : Int) : List Int :=
  (List.range n.toNat).map (fun (k : Nat) => (k : Int))

/-- The `for col in range(self.N)` loop of `solve_generator`
(lines 39-45), abstracted over the recursive sub-search `next`
(`yield from self.solve_generator(row + 1)`).  For each safe column:
place, yield `place`, run the sub-search, remove, yield `remove`. -/
def solveCols (next : NQueenSolver → Option (List Ev × NQueenSolver)) (row : Int) :
    NQueenSolver → List Int → Option (List Ev × NQueenSolver)
  | s, [] => some ([], s)
  | s, c :: cs =>
    if is_safe s row c then
      match place_queen s row c with
      | none => none
      | some s1 =>
        match next s1 with
        | none => none
        | some (evs, s2) =>
          match remove_queen s2 row c with
          | none => none
          | some s3 =>
            match solveCols next row s3 cs with
            | none => none
            | some (evs', s4) =>
              some (Ev.place row c :: (evs ++ Ev.remove row c :: evs'), s4)
    else solveCols next row s cs

/-- `solve_generator` (lines 33-45): skip filled rows; if every row is
filled, yield one `solution` event with a snapshot of `queens`; otherwise
try each column in increasing order.  `fuel` bounds the recursion depth
(`fuel = N.toNat + 1` always suffices, see `gen_total`). -/
def solve_generator : Nat → NQueenSolver → Nat → Option (List Ev × NQueenSolver)
  | 0, _, _ => none
  | Nat.succ fuel, s, row =>
    match nextEmpty s.N s.queens row with
    | none => none
    | some row' =>
      if (row' : Int) = s.N then some ([Ev.solution s.queens], s)
      else solveCols (fun s1 => solve_generator fuel s1 (row' + 1)) (row' : Int) s (colsRange s.N)

/-- The seeding loop of `__init__` (lines 14-16): place each initial
queen in order via `place_queen`, with no safety or bounds validation. -/
def seedPlace : NQueenSolver → List (Int × Int) → Option NQueenSolver
  | s, [] => some s
  | s, (r, c) :: rest =>
    match place_queen s r c with
    | none => none
    | some s' => seedPlace s' rest

/-- `NQueenSolver(N, initial_queens)` (lines 7-16). -/
def construct (n : Int) (seed : List (Int × Int)) : Option NQueenSolver :=
  seedPlace (emptySolver n) seed

/-- The solution snapshots occurring in an event list, in order. -/
def solsOf (evs : List Ev) : List (List Int) :=
  evs.filterMap (fun e => match e with | Ev.solution qs => some qs | _ => none)

/-- Complete event sequence of a seeded search: construct, then run the
generator from row 0 to exhaustion. -/
def runFromSeed (n : Int) (seed : List (Int × Int)) (fuel : Nat) : Option (List Ev) :=
  match construct n seed with
  | none => none
  | some s =>
    match solve_generator fuel s 0 with
    | none => none
    | some (evs, _) => some evs

/-- Number of `solution` events of a complete unseeded search on an
`n × n` board. -/
def solutionCount (n : Nat) : Nat :=
  match solve_generator (n + 1) (emptySolver (n : Int)) 0 with
  | some (evs, _) => (solsOf evs).length
  | none => 0

/-! ## Specification-side definitions -/

/-- Modelled from the spec (section 4.2, step 1): the search step of the
recursive specification selects the globally smallest empty row (scanning
from row 0), emits `Solution` when every row holds a queen, and otherwise
tries columns `0 .. N-1` in increasing order exactly as the column loop
does.  Used to compare the source's cursor-based recursion against the
spec's prescribed ordering. -/
def specSearch : Nat → NQueenSolver → Option (List Ev × NQueenSolver)
  | 0, _ => none
  | Nat.succ fuel, s =>
    match nextEmpty s.N s.queens 0 with
    | none => none
    | some row =>
      if (row : Int) = s.N then some ([Ev.solution s.queens], s)
      else solveCols (fun s1 => specSearch fuel s1) (row : Int) s (colsRange s.N)

/-- Modelled from the spec (section 6, `new_search` validation): each seed
pair must have row and column in `[0, n)`, must not repeat an already
seeded row, and must be safe relative to the seed pairs placed before it. -/
def seedSafe : NQueenSolver → List (Int × Int) → Bool
  | _, [] => true
  | s, (r, c) :: rest =>
    decide (0 ≤ r) && decide (r < s.N) && decide (0 ≤ c) && decide (c < s.N) &&
      decide (pyGet s.queens r = some (-1)) && is_safe s r c &&
      (match place_queen s r c with
       | none => false
       | some s' => seedSafe s' rest)

/-- Stack-discipline checker: processes an event list against a stack of
pending placements.  `place` pushes, `remove` must match the top of the
stack and pops, `solution` leaves the stack unchanged; the result is the
final stack, or `none` on a mismatched removal. -/
def runBal : List (Int × Int) → List Ev → Option (List (Int × Int))
  | st, [] => some st
  | st, Ev.place r c :: rest => runBal ((r, c) :: st) rest
  | st, Ev.remove r c :: rest =>
    match st with
    | [] => none
    | (r', c') :: st' => if r = r' ∧ c = c' then runBal st' rest else none
  | st, Ev.solution _ :: rest => runBal st rest

/-- All length-`k` lists with entries drawn from `0 .. n-1` (as `Int`). -/
def tuples (n : Nat) : Nat → List (List Int)
  | 0 => [[]]
  | Nat.succ k => (List.range n).flatMap (fun c => (tuples n k).map (fun t => ((c : Int) :: t)))

/-- Queens at `(r1, c1)` and `(r2, c2)` in distinct rows do not attack
each other: distinct columns and distinct diagonals. -/
def noAttackB (r1 : Nat) (c1 : Int) (r2 : Nat) (c2 : Int) : Bool :=
  decide (c1 ≠ c2) && decide ((r1 : Int) - c1 ≠ (r2 : Int) - c2) &&
    decide ((r1 : Int) + c1 ≠ (r2 : Int) + c2)

/-- Executable check that `qs` is a complete conflict-free `n`-queens
assignment: length `n`, all entries in `[0, n)`, and pairwise
non-attacking. -/
def okBoard (n : Int) (qs : List Int) : Bool :=
  decide (qs.length = n.toNat) &&
    qs.all (fun c => decide (0 ≤ c) && decide (c < n)) &&
    (List.range qs.length).all (fun i =>
      (List.range qs.length).all (fun j =>
        decide (i = j) ||
          (match qs.get? i, qs.get? j with
           | some ci, some cj => noAttackB i ci j cj
           | _, _ => true)))

/-- The known `n`-queens solution boards, by brute-force enumeration of
all `n^n` assignments. -/
def solutionBoards (n : Nat) : List (List Int) :=
  (tuples n n).filter (fun qs => okBoard (n : Int) qs)

/-- The known `n`-queens solution count. -/
def nQueensCount (n : Nat) : Nat :=
  (solutionBoards n).length

/-! ## Semantic predicates -/

/-- Row `r` currently holds a queen. -/
def FilledAt (qs : List Int) (r : Nat) : Prop :=
  ∃ c, qs.get? r = some c ∧ c ≠ -1

/-- `qs` is a complete, conflict-free assignment for an `n × n` board:
length `n`, all entries in `[0, n)` (hence no `-1` sentinel), and no two
rows share a column or a diagonal. -/
def ValidFull (n : Int) (qs : List Int) : Prop :=
  qs.length = n.toNat ∧
  (∀ (r : Nat) (c : Int), qs.get? r = some c → 0 ≤ c ∧ c < n) ∧
  (∀ (r1 r2 : Nat) (c1 c2 : Int), qs.get? r1 = some c1 → qs.get? r2 = some c2 → r1 ≠ r2 →
    c1 ≠ c2 ∧ (r1 : Int) - c1 ≠ (r2 : Int) - c2 ∧ (r1 : Int) + c1 ≠ (r2 : Int) + c2)

/-- `qs` agrees with every queen already placed on the board `s`. -/
def ExtendsS (s : NQueenSolver) (qs : List Int) : Prop :=
  ∀ (r : Nat) (c : Int), s.queens.get? r = some c → c ≠ -1 → qs.get? r = some c

/-- `qs` is a valid full assignment extending the current board. -/
def Completion (s : NQueenSolver) (qs : List Int) : Prop :=
  ValidFull s.N qs ∧ ExtendsS s qs

/-- Well-formedness invariant of a board state: the assignment list has
length `N`, entries are in range, every placed queen is recorded in the
three sets, and every element of each set corresponds to exactly one
placed queen. -/
structure BoardInv (s : NQueenSolver) : Prop where
  len_eq : s.queens.length = s.N.toNat
  entries : ∀ (r : Nat) (c : Int), s.queens.get? r = some c → c ≠ -1 → 0 ≤ c ∧ c < s.N
  fwd : ∀ (r : Nat) (c : Int), s.queens.get? r = some c → c ≠ -1 →
    c ∈ s.cols ∧ ((r : Int) - c) ∈ s.diag1 ∧ ((r : Int) + c) ∈ s.diag2
  colsU : ∀ x ∈ s.cols, ∃! r : Nat, ∃ c, s.queens.get? r = some c ∧ c ≠ -1 ∧ c = x
  diag1U : ∀ y ∈ s.diag1, ∃! r : Nat, ∃ c, s.queens.get? r = some c ∧ c ≠ -1 ∧ (r : Int) - c = y
  diag2U : ∀ y ∈ s.diag2, ∃! r : Nat, ∃ c, s.queens.get? r = some c ∧ c ≠ -1 ∧ (r : Int) + c = y

/-- The lockstep property claimed by the spec for the three constraint
sets: every placed queen is recorded in all three sets, and every element
of each set corresponds to exactly one currently placed queen. -/
def LockStep (s : NQueenSolver) : Prop :=
  (∀ (r : Nat) (c : Int), s.queens.get? r = some c → c ≠ -1 →
    c ∈ s.cols ∧ ((r : Int) - c) ∈ s.diag1 ∧ ((r : Int) + c) ∈ s.diag2) ∧
  (∀ x ∈ s.cols, ∃! r : Nat, ∃ c, s.queens.get? r = some c ∧ c ≠ -1 ∧ c = x) ∧
  (∀ y ∈ s.diag1, ∃! r : Nat, ∃ c, s.queens.get? r = some c ∧ c ≠ -1 ∧ (r : Int) - c = y) ∧
  (∀ y ∈ s.diag2, ∃! r : Nat, ∃ c, s.queens.get? r = some c ∧ c ≠ -1 ∧ (r : Int) + c = y)

/-- States reachable by construction, `place_queen` and `remove_queen`
under their documented preconditions (spec section 4.1): `place` requires
an empty in-range row, an in-range column and safety; `remove` requires
that the row currently holds exactly the removed queen. -/
inductive Reach : NQueenSolver → Prop where
  | init : ∀ n : Int, Reach (emptySolver n)
  | place : ∀ (s s' : NQueenSolver) (r c : Int), Reach s →
      pyGet s.queens r = some (-1) → is_safe s r c = true →
      0 ≤ r → r < s.N → 0 ≤ c → c < s.N →
      place_queen s r c = some s' → Reach s'
  | remove : ∀ (s s' : NQueenSolver) (r c : Int), Reach s →
      pyGet s.queens r = some c → c ≠ -1 → 0 ≤ r →
      remove_queen s r c = some s' → Reach s'

/-- The conflict-freeness property of a solution snapshot asserted by the
spec (section 8): length `N`, no empty sentinel, and no two rows share a
column or a diagonal. -/
def SolutionOK (n : Int) (qs : List Int) : Prop :=
  qs.length = n.toNat ∧ (∀ c ∈ qs, c ≠ -1) ∧
  (∀ (r1 r2 : Nat) (c1 c2 : Int), qs.get? r1 = some c1 → qs.get? r2 = some c2 → r1 ≠ r2 →
    c1 ≠ c2 ∧ (r1 : Int) - c1 ≠ (r2 : Int) - c2 ∧ (r1 : Int) + c1 ≠ (r2 : Int) + c2)

/-- No `remove` event for any seeded row. -/
def NoSeedRemoves (seed : List (Int × Int)) (evs : List Ev) : Prop :=
  ∀ (r c : Int), (r, c) ∈ seed → ∀ c' : Int, Ev.remove r c' ∉ evs

/-! ## Basic list and indexing lemmas -/

theorem lget_set_self (l : List Int) (i : Nat) (v : Int) (h : i < l.length) :
    (l.set i v).get? i = some v := by
  rw [List.get?_set_eq, List.get?_eq_get h]
  rfl

theorem lget_set_ne (l : List Int) (i j : Nat) (v : Int) (h : i ≠ j) :
    (l.set i v).get? j = l.get? j :=
  List.get?_set_ne v l h

theorem lset_same (l : List Int) : ∀ (i : Nat) (v : Int), l.get? i = some v → l.set i v = l := by
  induction l with
  | nil => intro i v h; cases h
  | cons a t ih =>
    intro i v h
    cases i with
    | zero => simp only [List.get?] at h; cases h; rfl
    | succ i => simp only [List.get?] at h; simp [List.set, ih i v h]

theorem lset_set (l : List Int) : ∀ (i : Nat) (v w : Int), (l.set i v).set i w = l.set i w := by
  induction l with
  | nil => intro i v w; rfl
  | cons a t ih =>
    intro i v w
    cases i with
    | zero => rfl
    | succ i => simp [List.set, ih i v w]

theorem replicate_get? (n : Nat) : ∀ i : Nat,
    (List.replicate n (-1 : Int)).get? i = if i < n then some (-1) else none := by
  induction n with
  | zero => intro i; simp
  | succ n ih =>
    intro i
    cases i with
    | zero => simp [List.replicate]
    | succ i => simpa [List.replicate] using ih i

theorem pyIdx_natCast (len r : Nat) : pyIdx len (r : Int) = if r < len then some r else none := by
  have h0 : (0 : Int) ≤ (r : Int) := Int.natCast_nonneg r
  rw [pyIdx, if_pos h0]
  by_cases h : r < len
  · rw [if_pos (by exact_mod_cast h), if_pos h, Int.toNat_natCast]
  · rw [if_neg (by exact_mod_cast h), if_neg h]

theorem pyGet_natCast (l : List Int) (r : Nat) : pyGet l (r : Int) = l.get? r := by
  rw [pyGet, pyIdx_natCast]
  by_cases h : r < l.length
  · rw [if_pos h]
  · rw [if_neg h]
    exact (List.get?_eq_none.mpr (Nat.le_of_not_lt h)).symm

theorem pySet_natCast (l : List Int) (r : Nat) (v : Int) :
    pySet l (r : Int) v = if r < l.length then some (l.set r v) else none := by
  rw [pySet, pyIdx_natCast]
  by_cases h : r < l.length
  · rw [if_pos h, if_pos h]
  · rw [if_neg h, if_neg h]

theorem pyIdx_lt (len : Nat) (i : Int) (j : Nat) (h : pyIdx len i = some j) : j < len := by
  rw [pyIdx] at h
  split at h
  · split at h
    · cases h; omega
    · cases h
  · split at h
    · cases h; omega
    · cases h

theorem pyIdx_isSome_iff (len : Nat) (i : Int) :
    (pyIdx len i).isSome = true ↔ (-(len : Int) ≤ i ∧ i < (len : Int)) := by
  rw [pyIdx]
  split
  · split
    · simp; omega
    · simp; omega
  · split
    · simp; omega
    · simp; omega

theorem pyGet_none_iff (l : List Int) (i : Int) :
    pyGet l i = none ↔ pyIdx l.length i = none := by
  rw [pyGet]
  constructor
  · intro h
    cases hj : pyIdx l.length i with
    | none => rfl
    | some j =>
      rw [hj] at h
      have := pyIdx_lt l.length i j hj
      rw [List.get?_eq_none] at h
      omega
  · intro h; rw [h]

/-! ## Characterizations of the board operations -/

theorem is_safe_iff (s : NQueenSolver) (r c : Int) :
    is_safe s r c = true ↔ (c ∉ s.cols ∧ (r - c) ∉ s.diag1 ∧ (r + c) ∉ s.diag2) := by
  simp [is_safe, and_assoc]

theorem place_queen_natCast (s : NQueenSolver) (row : Nat) (c : Int) (h : row < s.queens.length) :
    place_queen s (row : Int) c =
      some ⟨s.N, insert c s.cols, insert ((row : Int) - c) s.diag1,
        insert ((row : Int) + c) s.diag2, s.queens.set row c⟩ := by
  rw [place_queen, pySet_natCast, if_pos h]

theorem place_queen_some (s : NQueenSolver) (r c : Int) (s' : NQueenSolver)
    (h : place_queen s r c = some s') :
    ∃ j, pyIdx s.queens.length r = some j ∧
      s' = ⟨s.N, insert c s.cols, insert (r - c) s.diag1, insert (r + c) s.diag2,
        s.queens.set j c⟩ := by
  rw [place_queen, pySet] at h
  cases hj : pyIdx s.queens.length r with
  | none => rw [hj] at h; cases h
  | some j =>
    rw [hj] at h
    cases h
    exact ⟨j, rfl, rfl⟩

theorem place_queen_isSome (s : NQueenSolver) (r c : Int) :
    (place_queen s r c).isSome = (pyIdx s.queens.length r).isSome := by
  rw [place_queen, pySet]
  cases pyIdx s.queens.length r <;> rfl

theorem place_queen_N (s : NQueenSolver) (r c : Int) (s' : NQueenSolver)
    (h : place_queen s r c = some s') : s'.N = s.N := by
  obtain ⟨j, -, rfl⟩ := place_queen_some s r c s' h
  rfl

theorem place_queen_len (s : NQueenSolver) (r c : Int) (s' : NQueenSolver)
    (h : place_queen s r c = some s') : s'.queens.length = s.queens.length := by
  obtain ⟨j, -, rfl⟩ := place_queen_some s r c s' h
  exact List.length_set s.queens j c

theorem place_remove_roundtrip (s : NQueenSolver) (row : Nat) (c : Int) (s1 : NQueenSolver)
    (hE : s.queens.get? row = some (-1)) (hS : is_safe s (row : Int) c = true)
    (hP : place_queen s (row : Int) c = some s1) :
    remove_queen s1 (row : Int) c = some s := by
  obtain ⟨hc, hd1, hd2⟩ := (is_safe_iff s (row : Int) c).mp hS
  have hlt : row < s.queens.length := by
    rcases List.get?_eq_some.mp hE with ⟨h, -⟩
    exact h
  rw [place_queen_natCast s row c hlt] at hP
  cases hP
  rw [remove_queen]
  have hlen : (s.queens.set row c).length = s.queens.length := List.length_set s.queens row c
  rw [show (⟨s.N, insert c s.cols, insert ((row : Int) - c) s.diag1,
        insert ((row : Int) + c) s.diag2, s.queens.set row c⟩ : NQueenSolver).queens =
      s.queens.set row c from rfl, pySet_natCast, hlen, if_pos hlt]
  simp only [lset_set, lset_same s.queens row (-1) hE]
  rw [if_pos (Finset.mem_insert_self c s.cols),
    if_pos (Finset.mem_insert_self ((row : Int) - c) s.diag1),
    if_pos (Finset.mem_insert_self ((row : Int) + c) s.diag2)]
  rw [Finset.erase_insert hc, Finset.erase_insert hd1, Finset.erase_insert hd2]

/-! ## Lemmas about `nextEmpty` -/

theorem nextEmpty_eq (n : Int) (qs : List Int) (row : Nat) :
    nextEmpty n qs row =
      if (row : Int) < n then
        match pyGet qs (row : Int) with
        | none => none
        | some v => if v = -1 then some row else nextEmpty n qs (row + 1)
      else some row := by
  by_cases h : (row : Int) < n
  · have hk : n.toNat - row = (n.toNat - (row + 1)) + 1 := by omega
    rw [nextEmpty, hk, neAux, if_pos h, if_pos h]
    rfl
  · rw [nextEmpty]
    cases hk : n.toNat - row with
    | zero => rw [neAux, if_neg h, if_neg h]
    | succ k => rw [neAux, if_neg h, if_neg h]

theorem neAux_ge (n : Int) (qs : List Int) :
    ∀ (k row row' : Nat), neAux n qs k row = some row' → row ≤ row' := by
  intro k
  induction k with
  | zero =>
    intro row row' h
    rw [neAux] at h
    by_cases hlt : (row : Int) < n
    · rw [if_pos hlt] at h; cases h
    · rw [if_neg hlt] at h; cases h; exact Nat.le_refl row
  | succ k ih =>
    intro row row' h
    rw [neAux] at h
    by_cases hlt : (row : Int) < n
    · rw [if_pos hlt] at h
      cases hg : pyGet qs (row : Int) with
      | none =>
        rw [hg] at h
        exact absurd h (by exact fun hh => Option.noConfusion hh)
      | some v =>
        rw [hg] at h
        have h' : (if v = -1 then some row else neAux n qs k (row + 1)) = some row' := h
        by_cases hv : v = -1
        · rw [if_pos hv] at h'; cases h'; exact Nat.le_refl row
        · rw [if_neg hv] at h'; exact Nat.le_trans (Nat.le_succ row) (ih (row + 1) row' h')
    · rw [if_neg hlt] at h; cases h; exact Nat.le_refl row

theorem nextEmpty_ge (n : Int) (qs : List Int) (row row' : Nat)
    (h : nextEmpty n qs row = some row') : row ≤ row' :=
  neAux_ge n qs _ row row' h

theorem neAux_le (n : Int) (qs : List Int) :
    ∀ (k row row' : Nat), (row : Int) ≤ n → neAux n qs k row = some row' → (row' : Int) ≤ n := by
  intro k
  induction k with
  | zero =>
    intro row row' hle h
    rw [neAux] at h
    by_cases hlt : (row : Int) < n
    · rw [if_pos hlt] at h; cases h
    · rw [if_neg hlt] at h; cases h; exact hle
  | succ k ih =>
    intro row row' hle h
    rw [neAux] at h
    by_cases hlt : (row : Int) < n
    · rw [if_pos hlt] at h
      cases hg : pyGet qs (row : Int) with
      | none =>
        rw [hg] at h
        exact absurd h (by exact fun hh => Option.noConfusion hh)
      | some v =>
        rw [hg] at h
        have h' : (if v = -1 then some row else neAux n qs k (row + 1)) = some row' := h
        by_cases hv : v = -1
        · rw [if_pos hv] at h'; cases h'; exact hle
        · rw [if_neg hv] at h'; exact ih (row + 1) row' (by push_cast; omega) h'
    · rw [if_neg hlt] at h; cases h; exact hle

theorem nextEmpty_le (n : Int) (qs : List Int) (row row' : Nat) (hle : (row : Int) ≤ n)
    (h : nextEmpty n qs row = some row') : (row' : Int) ≤ n :=
  neAux_le n qs _ row row' hle h

theorem neAux_stop (n : Int) (qs : List Int) :
    ∀ (k row row' : Nat), neAux n qs k row = some row' →
      ¬((row' : Int) < n) ∨ qs.get? row' = some (-1) := by
  intro k
  induction k with
  | zero =>
    intro row row' h
    rw [neAux] at h
    by_cases hlt : (row : Int) < n
    · rw [if_pos hlt] at h; cases h
    · rw [if_neg hlt] at h; cases h; left; exact hlt
  | succ k ih =>
    intro row row' h
    rw [neAux] at h
    by_cases hlt : (row : Int) < n
    · rw [if_pos hlt] at h
      cases hg : pyGet qs (row : Int) with
      | none =>
        rw [hg] at h
        exact absurd h (by exact fun hh => Option.noConfusion hh)
      | some v =>
        rw [hg] at h
        have h' : (if v = -1 then some row else neAux n qs k (row + 1)) = some row' := h
        by_cases hv : v = -1
        · rw [if_pos hv] at h'
          cases h'
          right
          rw [← pyGet_natCast, hg, hv]
        · rw [if_neg hv] at h'; exact ih (row + 1) row' h'
    · rw [if_neg hlt] at h; cases h; left; exact hlt

theorem nextEmpty_stop (n : Int) (qs : List Int) (row row' : Nat)
    (h : nextEmpty n qs row = some row') : ¬((row' : Int) < n) ∨ qs.get? row' = some (-1) :=
  neAux_stop n qs _ row row' h

theorem neAux_scan (n : Int) (qs : List Int) :
    ∀ (k row row' : Nat), neAux n qs k row = some row' →
      ∀ r : Nat, row ≤ r → r < row' → FilledAt qs r := by
  intro k
  induction k with
  | zero =>
    intro row row' h r h1 h2
    rw [neAux] at h
    by_cases hlt : (row : Int) < n
    · rw [if_pos hlt] at h; cases h
    · rw [if_neg hlt] at h; cases h; omega
  | succ k ih =>
    intro row row' h r h1 h2
    rw [neAux] at h
    by_cases hlt : (row : Int) < n
    · rw [if_pos hlt] at h
      cases hg : pyGet qs (row : Int) with
      | none =>
        rw [hg] at h
        exact absurd h (by exact fun hh => Option.noConfusion hh)
      | some v =>
        rw [hg] at h
        have h' : (if v = -1 then some row else neAux n qs k (row + 1)) = some row' := h
        by_cases hv : v = -1
        · rw [if_pos hv] at h'; cases h'; omega
        · rw [if_neg hv] at h'
          rcases Nat.eq_or_lt_of_le h1 with rfl | hgt
          · exact ⟨v, by rw [← pyGet_natCast]; exact hg, hv⟩
          · exact ih (row + 1) row' h' r hgt h2
    · rw [if_neg hlt] at h; cases h; omega

theorem nextEmpty_scan (n : Int) (qs : List Int) (row row' : Nat)
    (h : nextEmpty n qs row = some row') : ∀ r : Nat, row ≤ r → r < row' → FilledAt qs r :=
  neAux_scan n qs _ row row' h

theorem neAux_total (n : Int) (qs : List Int) (hlen : qs.length = n.toNat) :
    ∀ (k row : Nat), n.toNat ≤ row + k → (neAux n qs k row).isSome = true := by
  intro k
  induction k with
  | zero =>
    intro row hb
    rw [neAux, if_neg (by omega)]
    rfl
  | succ k ih =>
    intro row hb
    rw [neAux]
    by_cases hlt : (row : Int) < n
    · rw [if_pos hlt]
      have hrow : row < qs.length := by omega
      cases hg : qs.get? row with
      | none => rw [List.get?_eq_none] at hg; omega
      | some v =>
        have hpg : pyGet qs (row : Int) = some v := by rw [pyGet_natCast, hg]
        rw [hpg]
        show (if v = -1 then some row else neAux n qs k (row + 1)).isSome = true
        by_cases hv : v = -1
        · rw [if_pos hv]; rfl
        · rw [if_neg hv]; exact ih (row + 1) (by omega)
    · rw [if_neg hlt]; rfl

theorem nextEmpty_total (n : Int) (qs : List Int) (row : Nat) (hlen : qs.length = n.toNat) :
    (nextEmpty n qs row).isSome = true :=
  neAux_total n qs hlen _ row (by omega)

theorem nextEmpty_step (n : Int) (qs : List Int) (row : Nat) (hlt : (row : Int) < n)
    (c : Int) (hg : qs.get? row = some c) (hc : c ≠ -1) :
    nextEmpty n qs row = nextEmpty n qs (row + 1) := by
  rw [nextEmpty_eq, if_pos hlt, pyGet_natCast, hg]
  simp [hc]

theorem nextEmpty_from_zero (n : Int) (qs : List Int) :
    ∀ row : Nat, (row : Int) ≤ n → (∀ r : Nat, r < row → FilledAt qs r) →
      nextEmpty n qs 0 = nextEmpty n qs row := by
  intro row
  induction row with
  | zero => intro _ _; rfl
  | succ row ih =>
    intro hle hfill
    have h1 : nextEmpty n qs 0 = nextEmpty n qs row :=
      ih (by push_cast at hle ⊢; omega) (fun r hr => hfill r (by omega))
    rcases hfill row (by omega) with ⟨c, hg, hc⟩
    rw [h1, nextEmpty_step n qs row (by push_cast at hle ⊢; omega) c hg hc]

/-! ## Characterization equations for the search loops -/

theorem solveCols_nil (next : NQueenSolver → Option (List Ev × NQueenSolver)) (row : Int)
    (s : NQueenSolver) : solveCols next row s [] = some ([], s) := rfl

theorem solveCols_cons (next : NQueenSolver → Option (List Ev × NQueenSolver)) (row : Int)
    (s : NQueenSolver) (c : Int) (cs : List Int) :
    solveCols next row s (c :: cs) =
      if is_safe s row c then
        (place_queen s row c).bind (fun s1 =>
          (next s1).bind (fun p =>
            (remove_queen p.2 row c).bind (fun s3 =>
              (solveCols next row s3 cs).bind (fun q =>
                some (Ev.place row c :: (p.1 ++ Ev.remove row c :: q.1), q.2))))) 
      else solveCols next row s cs := by
  simp only [solveCols]
  by_cases hs : is_safe s row c = true
  · rw [if_pos hs, if_pos hs]
    rcases hp : place_queen s row c with _ | s1
    · rfl
    · show (match next s1 with
        | none => none
        | some (evs, s2) =>
          match remove_queen s2 row c with
          | none => none
          | some s3 =>
            match solveCols next row s3 cs with
            | none => none
            | some (evs', s4) => some (Ev.place row c :: (evs ++ Ev.remove row c :: evs'), s4)) =
        (next s1).bind (fun p =>
          (remove_queen p.2 row c).bind (fun s3 =>
            (solveCols next row s3 cs).bind (fun q =>
              some (Ev.place row c :: (p.1 ++ Ev.remove row c :: q.1), q.2))))
      rcases hn : next s1 with _ | ⟨evs1, s2⟩
      · rfl
      · show (match remove_queen s2 row c with
          | none => none
          | some s3 =>
            match solveCols next row s3 cs with
            | none => none
            | some (evs', s4) =>
              some (Ev.place row c :: (evs1 ++ Ev.remove row c :: evs'), s4)) =
          (remove_queen s2 row c).bind (fun s3 =>
            (solveCols next row s3 cs).bind (fun q =>
              some (Ev.place row c :: (evs1 ++ Ev.remove row c :: q.1), q.2)))
        rcases hr : remove_queen s2 row c with _ | s3
        · rfl
        · show (match solveCols next row s3 cs with
            | none => none
            | some (evs', s4) =>
              some (Ev.place row c :: (evs1 ++ Ev.remove row c :: evs'), s4)) =
            (solveCols next row s3 cs).bind (fun q =>
              some (Ev.place row c :: (evs1 ++ Ev.remove row c :: q.1), q.2))
          rcases hc2 : solveCols next row s3 cs with _ | ⟨evs2, s4⟩
          · rfl
          · rfl
  · rw [if_neg hs, if_neg hs]

theorem solve_generator_succ (fuel : Nat) (s : NQueenSolver) (row : Nat) :
    solve_generator (fuel + 1) s row =
      (nextEmpty s.N s.queens row).bind (fun row' =>
        if (row' : Int) = s.N then some ([Ev.solution s.queens], s)
        else solveCols (fun s1 => solve_generator fuel s1 (row' + 1)) (row' : Int) s
          (colsRange s.N)) := by
  simp only [solve_generator]
  cases nextEmpty s.N s.queens row with
  | none => rfl
  | some row' => rfl

/-- Destructured form of one safe iteration of the column loop. -/
theorem solveCols_cons_safe_some (next : NQueenSolver → Option (List Ev × NQueenSolver))
    (row : Int) (s : NQueenSolver) (c : Int) (cs : List Int) (evs : List Ev)
    (s' : NQueenSolver) (hs : is_safe s row c = true)
    (h : solveCols next row s (c :: cs) = some (evs, s')) :
    ∃ (s1 : NQueenSolver) (evs1 : List Ev) (s2 s3 : NQueenSolver) (evs2 : List Ev)
      (s4 : NQueenSolver),
      place_queen s row c = some s1 ∧ next s1 = some (evs1, s2) ∧
      remove_queen s2 row c = some s3 ∧ solveCols next row s3 cs = some (evs2, s4) ∧
      evs = Ev.place row c :: (evs1 ++ Ev.remove row c :: evs2) ∧ s' = s4 := by
  rw [solveCols_cons, if_pos hs] at h
  rw [Option.bind_eq_some] at h
  obtain ⟨s1, hp, h⟩ := h
  rw [Option.bind_eq_some] at h
  obtain ⟨⟨evs1, s2⟩, hn, h⟩ := h
  rw [Option.bind_eq_some] at h
  obtain ⟨s3, hr, h⟩ := h
  rw [Option.bind_eq_some] at h
  obtain ⟨⟨evs2, s4⟩, hc2, h⟩ := h
  have h2 : (Ev.place row c :: (evs1 ++ Ev.remove row c :: evs2), s4) = (evs, s') :=
    Option.some.inj h
  rw [Prod.mk.injEq] at h2
  obtain ⟨he, hs4⟩ := h2
  exact ⟨s1, evs1, s2, s3, evs2, s4, hp, hn, hr, hc2, he.symm, hs4.symm⟩

/-! ## Restoration: the generator leaves the board exactly as it found it -/

theorem colsRange_nil (n : Int) (h : n ≤ 0) : colsRange n = [] := by
  rw [colsRange, Int.toNat_of_nonpos h]
  rfl

theorem colsRange_nonneg (n : Int) : ∀ c ∈ colsRange n, 0 ≤ c ∧ c < n := by
  intro c hc
  simp only [colsRange, List.mem_map, List.mem_range] at hc
  obtain ⟨k, hk, rfl⟩ := hc
  omega

theorem colsRange_nodup (n : Int) : (colsRange n).Nodup := by
  rw [colsRange]
  exact (List.nodup_range n.toNat).map (fun a b hab => by exact_mod_cast hab)

theorem colsRange_mem (n : Int) (c : Int) (h0 : 0 ≤ c) (h1 : c < n) : c ∈ colsRange n := by
  simp only [colsRange, List.mem_map, List.mem_range]
  exact ⟨c.toNat, by omega, by omega⟩

theorem solveCols_restore (next : NQueenSolver → Option (List Ev × NQueenSolver)) (row : Nat)
    (N0 : Int) (hnext : ∀ s1 evs s2, s1.N = N0 → next s1 = some (evs, s2) → s2 = s1) :
    ∀ (cols : List Int) (s : NQueenSolver) (evs : List Ev) (s' : NQueenSolver),
      s.N = N0 → s.queens.get? row = some (-1) →
      solveCols next (row : Int) s cols = some (evs, s') → s' = s := by
  intro cols
  induction cols with
  | nil =>
    intro s evs s' hN hE h
    rw [solveCols_nil] at h
    have h2 := Option.some.inj h
    rw [Prod.mk.injEq] at h2
    exact h2.2.symm
  | cons c cs ih =>
    intro s evs s' hN hE h
    by_cases hs : is_safe s (row : Int) c = true
    · obtain ⟨s1, evs1, s2, s3, evs2, s4, hp, hn, hr, hc2, he, hs4⟩ :=
        solveCols_cons_safe_some next (row : Int) s c cs evs s' hs h
      have hs2 : s2 = s1 := hnext s1 evs1 s2 (by rw [place_queen_N s _ _ _ hp, hN]) hn
      subst hs2
      have hrt : remove_queen s2 (row : Int) c = some s :=
        place_remove_roundtrip s row c s2 hE hs hp
      have hs3 : s3 = s := Option.some.inj (hrt.symm.trans hr) |>.symm
      subst hs3
      rw [hs4]
      exact ih s3 evs2 s4 hN hE hc2
    · rw [solveCols_cons, if_neg hs] at h
      exact ih s evs s' hN hE h

theorem gen_restore : ∀ (fuel : Nat) (s : NQueenSolver) (row : Nat) (evs : List Ev)
    (s' : NQueenSolver), ((row : Int) ≤ s.N ∨ s.N ≤ 0) →
    solve_generator fuel s row = some (evs, s') → s' = s := by
  intro fuel
  induction fuel with
  | zero => intro s row evs s' _ h; cases h
  | succ fuel ih =>
    intro s row evs s' hr h
    rw [solve_generator_succ, Option.bind_eq_some] at h
    obtain ⟨row', hne, h⟩ := h
    by_cases heq : (row' : Int) = s.N
    · rw [if_pos heq] at h
      have h2 := Option.some.inj h
      rw [Prod.mk.injEq] at h2
      exact h2.2.symm
    · rw [if_neg heq] at h
      by_cases hN0 : s.N ≤ 0
      · rw [colsRange_nil s.N hN0, solveCols_nil] at h
        have h2 := Option.some.inj h
        rw [Prod.mk.injEq] at h2
        exact h2.2.symm
      · have hle : (row : Int) ≤ s.N := by
          rcases hr with hr | hr
          · exact hr
          · exact absurd hr hN0
        have hle' : (row' : Int) ≤ s.N := nextEmpty_le _ _ _ _ hle hne
        have hlt : (row' : Int) < s.N := lt_of_le_of_ne hle' heq
        have hEmpty : s.queens.get? row' = some (-1) := by
          rcases nextEmpty_stop _ _ _ _ hne with h1 | h1
          · exact absurd hlt h1
          · exact h1
        refine solveCols_restore _ row' s.N ?_ (colsRange s.N) s evs s' rfl hEmpty h
        intro s1 evs1 s2 hN1 hsub
        exact ih s1 (row' + 1) evs1 s2 (by left; rw [hN1]; push_cast; omega) hsub

/-! ## Remove events only concern rows that were empty at entry -/

theorem pyGet_set_eq_of_ne (l : List Int) (i : Nat) (v : Int) (r : Int)
    (h : pyIdx l.length r ≠ some i) : pyGet (l.set i v) r = pyGet l r := by
  rw [pyGet, pyGet, List.length_set]
  cases hj : pyIdx l.length r with
  | none => rfl
  | some j =>
    have hij : i ≠ j := fun he => h (by rw [hj, he])
    exact lget_set_ne l i j v hij

theorem pyGet_set_self_of_idx (l : List Int) (i : Nat) (v : Int) (r : Int)
    (h : pyIdx l.length r = some i) : pyGet (l.set i v) r = some v := by
  rw [pyGet, List.length_set, h]
  exact lget_set_self l i v (pyIdx_lt l.length r i h)

theorem solveCols_removes (next : NQueenSolver → Option (List Ev × NQueenSolver)) (row : Nat)
    (N0 : Int)
    (hnextR : ∀ s1 evs s2, s1.N = N0 → next s1 = some (evs, s2) → s2 = s1)
    (hnextRem : ∀ s1 evs s2, s1.N = N0 → next s1 = some (evs, s2) →
      ∀ (r c : Int), Ev.remove r c ∈ evs → pyGet s1.queens r = some (-1)) :
    ∀ (cols : List Int) (s : NQueenSolver) (evs : List Ev) (s' : NQueenSolver),
      s.N = N0 → (∀ c ∈ cols, (0 : Int) ≤ c) → s.queens.get? row = some (-1) →
      solveCols next (row : Int) s cols = some (evs, s') →
      ∀ (r c : Int), Ev.remove r c ∈ evs → pyGet s.queens r = some (-1) := by
  intro cols
  induction cols with
  | nil =>
    intro s evs s' hN hcl hE h r c hmem
    rw [solveCols_nil] at h
    have h2 := Option.some.inj h
    rw [Prod.mk.injEq] at h2
    rw [← h2.1] at hmem
    cases hmem
  | cons c0 cs ih =>
    intro s evs s' hN hcl hE h r c hmem
    by_cases hs : is_safe s (row : Int) c0 = true
    · obtain ⟨s1, evs1, s2, s3, evs2, s4, hp, hn, hr, hc2, he, hs4⟩ :=
        solveCols_cons_safe_some next (row : Int) s c0 cs evs s' hs h
      have hN1 : s1.N = N0 := by rw [place_queen_N s _ _ _ hp, hN]
      have hs2 : s2 = s1 := hnextR s1 evs1 s2 hN1 hn
      subst hs2
      have hrt : remove_queen s2 (row : Int) c0 = some s :=
        place_remove_roundtrip s row c0 s2 hE hs hp
      have hs3 : s3 = s := Option.some.inj (hrt.symm.trans hr) |>.symm
      rw [hs3] at hc2
      subst he
      have hlt : row < s.queens.length := by
        rcases List.get?_eq_some.mp hE with ⟨hh, -⟩
        exact hh
      rcases List.mem_cons.mp hmem with hev | hev
      · cases hev
      rcases List.mem_append.mp hev with hev1 | hev2
      · -- a remove event of the sub-search, pulled back through the placement
        have hsub := hnextRem s2 evs1 s2 hN1 hn r c hev1
        rw [place_queen_natCast s row c0 hlt] at hp
        have hq : s2.queens = s.queens.set row c0 := by rw [← Option.some.inj hp]
        rw [hq] at hsub
        by_cases hidx : pyIdx s.queens.length r = some row
        · rw [pyGet_set_self_of_idx s.queens row c0 r hidx] at hsub
          have hc0 : (0 : Int) ≤ c0 := hcl c0 (List.mem_cons_self c0 cs)
          have := Option.some.inj hsub
          omega
        · rw [pyGet_set_eq_of_ne s.queens row c0 r hidx] at hsub
          exact hsub
      rcases List.mem_cons.mp hev2 with hev3 | hev4
      · -- the block's own remove event concerns the row found empty
        have : r = (row : Int) := by cases hev3; rfl
        rw [this, pyGet_natCast]
        exact hE
      · exact ih s evs2 s4 hN (fun x hx => hcl x (List.mem_cons_of_mem c0 hx)) hE hc2 r c hev4
    · rw [solveCols_cons, if_neg hs] at h
      exact ih s evs s' hN (fun x hx => hcl x (List.mem_cons_of_mem c0 hx)) hE h r c hmem

theorem gen_removes : ∀ (fuel : Nat) (s : NQueenSolver) (row : Nat) (evs : List Ev)
    (s' : NQueenSolver), ((row : Int) ≤ s.N ∨ s.N ≤ 0) →
    solve_generator fuel s row = some (evs, s') →
    ∀ (r c : Int), Ev.remove r c ∈ evs → pyGet s.queens r = some (-1) := by
  intro fuel
  induction fuel with
  | zero => intro s row evs s' _ h; cases h
  | succ fuel ih =>
    intro s row evs s' hr h r c hmem
    rw [solve_generator_succ, Option.bind_eq_some] at h
    obtain ⟨row', hne, h⟩ := h
    by_cases heq : (row' : Int) = s.N
    · rw [if_pos heq] at h
      have h2 := Option.some.inj h
      rw [Prod.mk.injEq] at h2
      rw [← h2.1] at hmem
      rcases List.mem_cons.mp hmem with he | he
      · cases he
      · cases he
    · rw [if_neg heq] at h
      by_cases hN0 : s.N ≤ 0
      · rw [colsRange_nil s.N hN0, solveCols_nil] at h
        have h2 := Option.some.inj h
        rw [Prod.mk.injEq] at h2
        rw [← h2.1] at hmem
        cases hmem
      · have hle : (row : Int) ≤ s.N := by
          rcases hr with hr | hr
          · exact hr
          · exact absurd hr hN0
        have hle' : (row' : Int) ≤ s.N := nextEmpty_le _ _ _ _ hle hne
        have hlt : (row' : Int) < s.N := lt_of_le_of_ne hle' heq
        have hEmpty : s.queens.get? row' = some (-1) := by
          rcases nextEmpty_stop _ _ _ _ hne with h1 | h1
          · exact absurd hlt h1
          · exact h1
        refine solveCols_removes _ row' s.N ?_ ?_ (colsRange s.N) s evs s' rfl
          (fun x hx => (colsRange_nonneg s.N x hx).1) hEmpty h r c hmem
        · intro s1 evs1 s2 hN1 hsub
          exact gen_restore fuel s1 (row' + 1) evs1 s2 (by left; rw [hN1]; push_cast; omega) hsub
        · intro s1 evs1 s2 hN1 hsub r1 c1 hm1
          exact ih s1 (row' + 1) evs1 s2 (by left; rw [hN1]; push_cast; omega) hsub r1 c1 hm1

/-! ## Stack discipline of the event trace -/

theorem runBal_append : ∀ (xs ys : List Ev) (st : List (Int × Int)),
    runBal st (xs ++ ys) = (runBal st xs).bind (fun st2 => runBal st2 ys) := by
  intro xs
  induction xs with
  | nil => intro ys st; rfl
  | cons e xs ih =>
    intro ys st
    cases e with
    | place r c => exact ih ys ((r, c) :: st)
    | remove r c =>
      cases st with
      | nil => rfl
      | cons top st' =>
        obtain ⟨r', c'⟩ := top
        show (if r = r' ∧ c = c' then runBal st' (xs ++ ys) else none) =
          ((if r = r' ∧ c = c' then runBal st' xs else none).bind (fun st2 => runBal st2 ys))
        by_cases hrc : r = r' ∧ c = c'
        · rw [if_pos hrc, if_pos hrc]
          exact ih ys st'
        · rw [if_neg hrc, if_neg hrc]
          rfl
    | solution qs => exact ih ys st

theorem solveCols_bal (next : NQueenSolver → Option (List Ev × NQueenSolver)) (row : Int)
    (hnext : ∀ s1 evs s2, next s1 = some (evs, s2) → ∀ st, runBal st evs = some st) :
    ∀ (cols : List Int) (s : NQueenSolver) (evs : List Ev) (s' : NQueenSolver),
      solveCols next row s cols = some (evs, s') → ∀ st, runBal st evs = some st := by
  intro cols
  induction cols with
  | nil =>
    intro s evs s' h st
    rw [solveCols_nil] at h
    have h2 := Option.some.inj h
    rw [Prod.mk.injEq] at h2
    rw [← h2.1]
    rfl
  | cons c cs ih =>
    intro s evs s' h st
    by_cases hs : is_safe s row c = true
    · obtain ⟨s1, evs1, s2, s3, evs2, s4, hp, hn, hr, hc2, he, hs4⟩ :=
        solveCols_cons_safe_some next row s c cs evs s' hs h
      rw [he]
      show runBal ((row, c) :: st) (evs1 ++ Ev.remove row c :: evs2) = some st
      rw [runBal_append, hnext s1 evs1 s2 hn ((row, c) :: st)]
      show runBal ((row, c) :: st) (Ev.remove row c :: evs2) = some st
      show (if row = row ∧ c = c then runBal st evs2 else none) = some st
      rw [if_pos ⟨rfl, rfl⟩]
      exact ih s3 evs2 s4 hc2 st
    · rw [solveCols_cons, if_neg hs] at h
      exact ih s evs s' h st

theorem gen_bal : ∀ (fuel : Nat) (s : NQueenSolver) (row : Nat) (evs : List Ev)
    (s' : NQueenSolver), solve_generator fuel s row = some (evs, s') →
    ∀ st, runBal st evs = some st := by
  intro fuel
  induction fuel with
  | zero => intro s row evs s' h; cases h
  | succ fuel ih =>
    intro s row evs s' h st
    rw [solve_generator_succ, Option.bind_eq_some] at h
    obtain ⟨row', hne, h⟩ := h
    by_cases heq : (row' : Int) = s.N
    · rw [if_pos heq] at h
      have h2 := Option.some.inj h
      rw [Prod.mk.injEq] at h2
      rw [← h2.1]
      rfl
    · rw [if_neg heq] at h
      exact solveCols_bal _ (row' : Int)
        (fun s1 evs1 s2 hsub st1 => ih s1 (row' + 1) evs1 s2 hsub st1)
        (colsRange s.N) s evs s' h st

/-! ## Invariant preservation for the three constraint sets

Each set (`cols`, `diag1`, `diag2`) tracks a key `kf r c` of the placed
queens (`c`, `r - c`, `r + c` respectively); the lemmas below are generic
in the key function. -/

theorem keyFwd_place (qs : List Int) (S : Finset Int) (kf : Nat → Int → Int) (j : Nat) (c : Int)
    (hfwd : ∀ (r : Nat) (c' : Int), qs.get? r = some c' → c' ≠ -1 → kf r c' ∈ S)
    (hj : j < qs.length) :
    ∀ (r : Nat) (c' : Int), (qs.set j c).get? r = some c' → c' ≠ -1 →
      kf r c' ∈ insert (kf j c) S := by
  intro r c' hg hc'
  by_cases hrj : r = j
  · subst hrj
    rw [lget_set_self qs r c hj] at hg
    cases hg
    exact Finset.mem_insert_self _ _
  · rw [lget_set_ne qs j r c (fun he => hrj he.symm)] at hg
    exact Finset.mem_insert_of_mem (hfwd r c' hg hc')

theorem keyU_place (qs : List Int) (S : Finset Int) (kf : Nat → Int → Int) (j : Nat) (c : Int)
    (hfwd : ∀ (r : Nat) (c' : Int), qs.get? r = some c' → c' ≠ -1 → kf r c' ∈ S)
    (hU : ∀ y ∈ S, ∃! r : Nat, ∃ c', qs.get? r = some c' ∧ c' ≠ -1 ∧ kf r c' = y)
    (hj : qs.get? j = some (-1)) (hc : c ≠ -1) (hnot : kf j c ∉ S) :
    ∀ y ∈ insert (kf j c) S,
      ∃! r : Nat, ∃ c', (qs.set j c).get? r = some c' ∧ c' ≠ -1 ∧ kf r c' = y := by
  intro y hy
  obtain ⟨hjlen, -⟩ := List.get?_eq_some.mp hj
  rcases Finset.mem_insert.mp hy with hy1 | hy2
  · subst hy1
    refine ⟨j, ⟨c, lget_set_self qs j c hjlen, hc, rfl⟩, ?_⟩
    rintro r ⟨c', hg, hc', hk⟩
    by_cases hrj : r = j
    · exact hrj
    · exfalso
      rw [lget_set_ne qs j r c (fun he => hrj he.symm)] at hg
      exact hnot (hk ▸ hfwd r c' hg hc')
  · obtain ⟨r0, ⟨c0, hg0, hc0, hk0⟩, huniq⟩ := hU y hy2
    have hr0j : r0 ≠ j := by
      intro he
      rw [he, hj] at hg0
      cases hg0
      exact hc0 rfl
    refine ⟨r0, ⟨c0, ?_, hc0, hk0⟩, ?_⟩
    · rw [lget_set_ne qs j r0 c (fun he => hr0j he.symm)]
      exact hg0
    · rintro r ⟨c', hg, hc', hk⟩
      by_cases hrj : r = j
      · subst hrj
        rw [lget_set_self qs r c hjlen] at hg
        cases hg
        exact absurd (hk ▸ hy2) hnot
      · rw [lget_set_ne qs j r c (fun he => hrj he.symm)] at hg
        exact huniq r ⟨c', hg, hc', hk⟩

theorem keyU_remove (qs : List Int) (S : Finset Int) (kf : Nat → Int → Int) (j : Nat) (c : Int)
    (hU : ∀ y ∈ S, ∃! r : Nat, ∃ c', qs.get? r = some c' ∧ c' ≠ -1 ∧ kf r c' = y)
    (hj : qs.get? j = some c) (hc : c ≠ -1) :
    ∀ y ∈ S.erase (kf j c),
      ∃! r : Nat, ∃ c', (qs.set j (-1)).get? r = some c' ∧ c' ≠ -1 ∧ kf r c' = y := by
  intro y hy
  obtain ⟨hyne, hyS⟩ := Finset.mem_erase.mp hy
  obtain ⟨r0, ⟨c0, hg0, hc0, hk0⟩, huniq⟩ := hU y hyS
  obtain ⟨hjlen, -⟩ := List.get?_eq_some.mp hj
  have hr0j : r0 ≠ j := by
    intro he
    subst he
    rw [hj] at hg0
    cases hg0
    exact hyne hk0.symm
  refine ⟨r0, ⟨c0, ?_, hc0, hk0⟩, ?_⟩
  · rw [lget_set_ne qs j r0 (-1) (fun he => hr0j he.symm)]
    exact hg0
  · rintro r ⟨c', hg, hc', hk⟩
    by_cases hrj : r = j
    · subst hrj
      rw [lget_set_self qs r (-1) hjlen] at hg
      cases hg
      exact absurd rfl hc'
    · rw [lget_set_ne qs j r (-1) (fun he => hrj he.symm)] at hg
      exact huniq r ⟨c', hg, hc', hk⟩

theorem keyFwd_remove (qs : List Int) (S : Finset Int) (kf : Nat → Int → Int) (j : Nat) (c : Int)
    (hfwd : ∀ (r : Nat) (c' : Int), qs.get? r = some c' → c' ≠ -1 → kf r c' ∈ S)
    (hU : ∀ y ∈ S, ∃! r : Nat, ∃ c', qs.get? r = some c' ∧ c' ≠ -1 ∧ kf r c' = y)
    (hj : qs.get? j = some c) (hc : c ≠ -1) :
    ∀ (r : Nat) (c' : Int), (qs.set j (-1)).get? r = some c' → c' ≠ -1 →
      kf r c' ∈ S.erase (kf j c) := by
  intro r c' hg hc'
  obtain ⟨hjlen, -⟩ := List.get?_eq_some.mp hj
  by_cases hrj : r = j
  · subst hrj
    rw [lget_set_self qs r (-1) hjlen] at hg
    cases hg
    exact absurd rfl hc'
  · rw [lget_set_ne qs j r (-1) (fun he => hrj he.symm)] at hg
    refine Finset.mem_erase.mpr ⟨?_, hfwd r c' hg hc'⟩
    intro he
    obtain ⟨r1, -, huniq⟩ := hU (kf j c) (hfwd j c hj hc)
    have h1 : r = r1 := huniq r ⟨c', hg, hc', he⟩
    have h2 : j = r1 := huniq j ⟨c, hj, hc, rfl⟩
    exact hrj (h1.trans h2.symm)

theorem inv_empty (n : Int) : BoardInv (emptySolver n) := by
  refine ⟨?_, ?_, ?_, ?_, ?_, ?_⟩
  · exact List.length_replicate n.toNat (-1)
  · intro r c hg hc
    rw [show (emptySolver n).queens = List.replicate n.toNat (-1) from rfl,
      replicate_get?] at hg
    split at hg
    · cases hg; exact absurd rfl hc
    · cases hg
  · intro r c hg hc
    rw [show (emptySolver n).queens = List.replicate n.toNat (-1) from rfl,
      replicate_get?] at hg
    split at hg
    · cases hg; exact absurd rfl hc
    · cases hg
  · intro x hx; exact absurd hx (Finset.not_mem_empty x)
  · intro x hx; exact absurd hx (Finset.not_mem_empty x)
  · intro x hx; exact absurd hx (Finset.not_mem_empty x)

/-- Invariant preservation for a placement at a `Nat` row, in the exact
shape produced by `place_queen` on an in-range row. -/
theorem inv_place_nat (s : NQueenSolver) (row : Nat) (c : Int) (hInv : BoardInv s)
    (hE : s.queens.get? row = some (-1)) (hS : is_safe s (row : Int) c = true)
    (h0c : 0 ≤ c) (h1c : c < s.N) :
    BoardInv ⟨s.N, insert c s.cols, insert ((row : Int) - c) s.diag1,
      insert ((row : Int) + c) s.diag2, s.queens.set row c⟩ := by
  obtain ⟨hcN, hd1N, hd2N⟩ := (is_safe_iff s (row : Int) c).mp hS
  obtain ⟨hjlen, -⟩ := List.get?_eq_some.mp hE
  have hcne : c ≠ -1 := by omega
  refine ⟨?_, ?_, ?_, ?_, ?_, ?_⟩
  · show (s.queens.set row c).length = s.N.toNat
    rw [List.length_set]
    exact hInv.len_eq
  · intro r c' hg hc'
    by_cases hrj : r = row
    · subst hrj
      rw [lget_set_self s.queens r c hjlen] at hg
      cases hg
      exact ⟨h0c, h1c⟩
    · rw [lget_set_ne s.queens row r c (fun he => hrj he.symm)] at hg
      exact hInv.entries r c' hg hc'
  · intro r c' hg hc'
    exact ⟨keyFwd_place s.queens s.cols (fun _ c'' => c'') row c
        (fun r' c'' hg' hc'' => (hInv.fwd r' c'' hg' hc'').1) hjlen r c' hg hc',
      keyFwd_place s.queens s.diag1 (fun r' c'' => (r' : Int) - c'') row c
        (fun r' c'' hg' hc'' => (hInv.fwd r' c'' hg' hc'').2.1) hjlen r c' hg hc',
      keyFwd_place s.queens s.diag2 (fun r' c'' => (r' : Int) + c'') row c
        (fun r' c'' hg' hc'' => (hInv.fwd r' c'' hg' hc'').2.2) hjlen r c' hg hc'⟩
  · exact keyU_place s.queens s.cols (fun _ c'' => c'') row c
      (fun r' c'' hg' hc'' => (hInv.fwd r' c'' hg' hc'').1) hInv.colsU hE hcne hcN
  · exact keyU_place s.queens s.diag1 (fun r' c'' => (r' : Int) - c'') row c
      (fun r' c'' hg' hc'' => (hInv.fwd r' c'' hg' hc'').2.1) hInv.diag1U hE hcne hd1N
  · exact keyU_place s.queens s.diag2 (fun r' c'' => (r' : Int) + c'') row c
      (fun r' c'' hg' hc'' => (hInv.fwd r' c'' hg' hc'').2.2) hInv.diag2U hE hcne hd2N

theorem remove_queen_some (s : NQueenSolver) (r c : Int) (s' : NQueenSolver)
    (h : remove_queen s r c = some s') :
    ∃ j, pyIdx s.queens.length r = some j ∧ c ∈ s.cols ∧ (r - c) ∈ s.diag1 ∧
      (r + c) ∈ s.diag2 ∧
      s' = ⟨s.N, s.cols.erase c, s.diag1.erase (r - c), s.diag2.erase (r + c),
        s.queens.set j (-1)⟩ := by
  rw [remove_queen, pySet] at h
  cases hj : pyIdx s.queens.length r with
  | none =>
    rw [hj] at h
    exact absurd h (fun hh => Option.noConfusion hh)
  | some j =>
    rw [hj] at h
    have h' : (if c ∈ s.cols then
        if (r - c) ∈ s.diag1 then
          if (r + c) ∈ s.diag2 then
            some (⟨s.N, s.cols.erase c, s.diag1.erase (r - c), s.diag2.erase (r + c),
              s.queens.set j (-1)⟩ : NQueenSolver)
          else none
        else none
      else none) = some s' := h
    by_cases h1 : c ∈ s.cols
    · rw [if_pos h1] at h'
      by_cases h2 : (r - c) ∈ s.diag1
      · rw [if_pos h2] at h'
        by_cases h3 : (r + c) ∈ s.diag2
        · rw [if_pos h3] at h'
          exact ⟨j, rfl, h1, h2, h3, (Option.some.inj h').symm⟩
        · rw [if_neg h3] at h'
          exact absurd h' (fun hh => Option.noConfusion hh)
      · rw [if_neg h2] at h'
        exact absurd h' (fun hh => Option.noConfusion hh)
    · rw [if_neg h1] at h'
      exact absurd h' (fun hh => Option.noConfusion hh)

/-- Invariant preservation for `place_queen` under the spec's
preconditions, with a Python-level (`Int`) row index. -/
theorem inv_place (s : NQueenSolver) (r c : Int) (s' : NQueenSolver) (hInv : BoardInv s)
    (hE : pyGet s.queens r = some (-1)) (hS : is_safe s r c = true)
    (h0r : 0 ≤ r) (h1r : r < s.N) (h0c : 0 ≤ c) (h1c : c < s.N)
    (hP : place_queen s r c = some s') : BoardInv s' := by
  have hr : r = ((r.toNat : Nat) : Int) := by omega
  obtain ⟨j, hidx, hs'⟩ := place_queen_some s r c s' hP
  have hlen := hInv.len_eq
  have hidx2 : pyIdx s.queens.length r = some r.toNat := by
    rw [pyIdx, if_pos h0r, if_pos (by omega)]
  have hj : j = r.toNat := by
    rw [hidx2] at hidx
    exact (Option.some.inj hidx).symm
  subst hj
  have hE' : s.queens.get? r.toNat = some (-1) := by
    rw [pyGet, hidx2] at hE
    exact hE
  have hgoal := inv_place_nat s r.toNat c hInv hE' (by rw [← hr]; exact hS) h0c h1c
  rw [hs', hr]
  exact hgoal

/-- Invariant preservation for `remove_queen` under the spec's
precondition `queens[r] = c`. -/
theorem inv_remove (s : NQueenSolver) (r c : Int) (s' : NQueenSolver) (hInv : BoardInv s)
    (hg : pyGet s.queens r = some c) (hc : c ≠ -1) (h0r : 0 ≤ r)
    (hRem : remove_queen s r c = some s') : BoardInv s' := by
  obtain ⟨j, hidx, hcS, hd1S, hd2S, hs'⟩ := remove_queen_some s r c s' hRem
  have hjlt : j < s.queens.length := pyIdx_lt _ _ _ hidx
  have hj : r = (j : Int) := by
    rw [pyIdx, if_pos h0r] at hidx
    split at hidx
    · have := Option.some.inj hidx
      omega
    · cases hidx
  subst hs'
  rw [hj] at hg
  rw [pyGet_natCast] at hg
  rw [hj]
  refine ⟨?_, ?_, ?_, ?_, ?_, ?_⟩
  · show (s.queens.set j (-1)).length = s.N.toNat
    rw [List.length_set]
    exact hInv.len_eq
  · intro rr cc hga hcc
    have hga' : (s.queens.set j (-1)).get? rr = some cc := hga
    by_cases hrj : rr = j
    · subst hrj
      rw [lget_set_self s.queens rr (-1) hjlt] at hga'
      cases hga'
      exact absurd rfl hcc
    · rw [lget_set_ne s.queens j rr (-1) (fun he => hrj he.symm)] at hga'
      exact hInv.entries rr cc hga' hcc
  · intro rr cc hga hcc
    refine ⟨?_, ?_, ?_⟩
    · exact keyFwd_remove s.queens s.cols (fun _ c1 => c1) j c
        (fun r1 c1 hg1 hc1 => (hInv.fwd r1 c1 hg1 hc1).1) hInv.colsU hg hc rr cc hga hcc
    · exact keyFwd_remove s.queens s.diag1 (fun r1 c1 => (r1 : Int) - c1) j c
        (fun r1 c1 hg1 hc1 => (hInv.fwd r1 c1 hg1 hc1).2.1) hInv.diag1U hg hc rr cc hga hcc
    · exact keyFwd_remove s.queens s.diag2 (fun r1 c1 => (r1 : Int) + c1) j c
        (fun r1 c1 hg1 hc1 => (hInv.fwd r1 c1 hg1 hc1).2.2) hInv.diag2U hg hc rr cc hga hcc
  · exact keyU_remove s.queens s.cols (fun _ c1 => c1) j c hInv.colsU hg hc
  · exact keyU_remove s.queens s.diag1 (fun r1 c1 => (r1 : Int) - c1) j c hInv.diag1U hg hc
  · exact keyU_remove s.queens s.diag2 (fun r1 c1 => (r1 : Int) + c1) j c hInv.diag2U hg hc

/-- Every state reachable under the documented preconditions satisfies the
full board invariant. -/
theorem reach_inv (s : NQueenSolver) (h : Reach s) : BoardInv s := by
  induction h with
  | init n => exact inv_empty n
  | place s s' r c hR hE hS h0r h1r h0c h1c hP ih =>
    exact inv_place s r c s' ih hE hS h0r h1r h0c h1c hP
  | remove s s' r c hR hg hc h0r hRem ih =>
    exact inv_remove s r c s' ih hg hc h0r hRem

/-! ## Seeding lemmas -/

theorem seedPlace_N_len : ∀ (seed : List (Int × Int)) (s s0 : NQueenSolver),
    seedPlace s seed = some s0 → s0.N = s.N ∧ s0.queens.length = s.queens.length := by
  intro seed
  induction seed with
  | nil =>
    intro s s0 h
    cases Option.some.inj h
    exact ⟨rfl, rfl⟩
  | cons p rest ih =>
    intro s s0 h
    obtain ⟨r, c⟩ := p
    simp only [seedPlace] at h
    cases hp : place_queen s r c with
    | none =>
      rw [hp] at h
      exact absurd h (fun hh => Option.noConfusion hh)
    | some s1 =>
      rw [hp] at h
      have h' : seedPlace s1 rest = some s0 := h
      obtain ⟨hN, hlen⟩ := ih s1 s0 h'
      exact ⟨hN.trans (place_queen_N s r c s1 hp),
        hlen.trans (place_queen_len s r c s1 hp)⟩

theorem seedSafe_inv : ∀ (seed : List (Int × Int)) (s : NQueenSolver), BoardInv s →
    seedSafe s seed = true → ∀ s0, seedPlace s seed = some s0 → BoardInv s0 := by
  intro seed
  induction seed with
  | nil =>
    intro s hInv _ s0 h
    cases Option.some.inj h
    exact hInv
  | cons p rest ih =>
    intro s hInv hS s0 h
    obtain ⟨r, c⟩ := p
    simp only [seedPlace] at h
    simp only [seedSafe, Bool.and_eq_true, decide_eq_true_eq] at hS
    obtain ⟨⟨⟨⟨⟨⟨h0r, h1r⟩, h0c⟩, h1c⟩, hE⟩, hsafe⟩, hrest⟩ := hS
    cases hp : place_queen s r c with
    | none =>
      rw [hp] at h
      exact absurd h (fun hh => Option.noConfusion hh)
    | some s1 =>
      rw [hp] at h
      have h' : seedPlace s1 rest = some s0 := h
      rw [hp] at hrest
      have hrest' : seedSafe s1 rest = true := hrest
      exact ih s1 (inv_place s r c s1 hInv hE hsafe h0r h1r h0c h1c hp) hrest' s0 h'

theorem construct_inv (n : Int) (seed : List (Int × Int)) (s0 : NQueenSolver)
    (hS : seedSafe (emptySolver n) seed = true) (hC : construct n seed = some s0) :
    BoardInv s0 :=
  seedSafe_inv seed (emptySolver n) (inv_empty n) hS s0 hC

theorem seedPlace_keeps : ∀ (seed : List (Int × Int)) (s s0 : NQueenSolver),
    seedPlace s seed = some s0 → (∀ p ∈ seed, (0 : Int) ≤ p.2) →
    ∀ (r v : Int), pyGet s.queens r = some v → 0 ≤ v →
      ∃ v', pyGet s0.queens r = some v' ∧ 0 ≤ v' := by
  intro seed
  induction seed with
  | nil =>
    intro s s0 h _ r v hg hv
    cases Option.some.inj h
    exact ⟨v, hg, hv⟩
  | cons p rest ih =>
    intro s s0 h hcl r v hg hv
    obtain ⟨r1, c1⟩ := p
    simp only [seedPlace] at h
    cases hp : place_queen s r1 c1 with
    | none =>
      rw [hp] at h
      exact absurd h (fun hh => Option.noConfusion hh)
    | some s1 =>
      rw [hp] at h
      have h' : seedPlace s1 rest = some s0 := h
      obtain ⟨j, hidx, hs1⟩ := place_queen_some s r1 c1 s1 hp
      have hq : s1.queens = s.queens.set j c1 := by rw [hs1]
      have hc1 : (0 : Int) ≤ c1 := hcl (r1, c1) (List.mem_cons_self _ _)
      by_cases hrj : pyIdx s.queens.length r = some j
      · have : pyGet s1.queens r = some c1 := by
          rw [hq]
          exact pyGet_set_self_of_idx s.queens j c1 r hrj
        exact ih s1 s0 h' (fun p hp2 => hcl p (List.mem_cons_of_mem _ hp2)) r c1 this hc1
      · have : pyGet s1.queens r = some v := by
          rw [hq, pyGet_set_eq_of_ne s.queens j c1 r hrj]
          exact hg
        exact ih s1 s0 h' (fun p hp2 => hcl p (List.mem_cons_of_mem _ hp2)) r v this hv

theorem seedPlace_mem_filled : ∀ (seed : List (Int × Int)) (s s0 : NQueenSolver),
    seedPlace s seed = some s0 → (∀ p ∈ seed, (0 : Int) ≤ p.2) →
    ∀ (r c : Int), (r, c) ∈ seed → ∃ v', pyGet s0.queens r = some v' ∧ 0 ≤ v' := by
  intro seed
  induction seed with
  | nil =>
    intro s s0 _ _ r c hmem
    cases hmem
  | cons p rest ih =>
    intro s s0 h hcl r c hmem
    obtain ⟨r1, c1⟩ := p
    simp only [seedPlace] at h
    cases hp : place_queen s r1 c1 with
    | none =>
      rw [hp] at h
      exact absurd h (fun hh => Option.noConfusion hh)
    | some s1 =>
      rw [hp] at h
      have h' : seedPlace s1 rest = some s0 := h
      obtain ⟨j, hidx, hs1⟩ := place_queen_some s r1 c1 s1 hp
      have hq : s1.queens = s.queens.set j c1 := by rw [hs1]
      have hc1 : (0 : Int) ≤ c1 := hcl (r1, c1) (List.mem_cons_self _ _)
      rcases List.mem_cons.mp hmem with he | he
      · have he2 : r = r1 ∧ c = c1 := by
          rw [Prod.mk.injEq] at he
          exact he
      
        have hplaced : pyGet s1.queens r = some c1 := by
          rw [he2.1, hq]
          exact pyGet_set_self_of_idx s.queens j c1 r1 hidx
        exact seedPlace_keeps rest s1 s0 h'
          (fun p hp2 => hcl p (List.mem_cons_of_mem _ hp2)) r c1 hplaced hc1
      · exact ih s1 s0 h' (fun p hp2 => hcl p (List.mem_cons_of_mem _ hp2)) r c he

/-! ## Soundness: every emitted solution is a valid completion -/

theorem solsOf_cons_place (r c : Int) (l : List Ev) :
    solsOf (Ev.place r c :: l) = solsOf l := rfl

theorem solsOf_cons_remove (r c : Int) (l : List Ev) :
    solsOf (Ev.remove r c :: l) = solsOf l := rfl

theorem solsOf_cons_solution (qs : List Int) (l : List Ev) :
    solsOf (Ev.solution qs :: l) = qs :: solsOf l := rfl

theorem solsOf_append (l1 l2 : List Ev) : solsOf (l1 ++ l2) = solsOf l1 ++ solsOf l2 :=
  List.filterMap_append l1 l2 _

/-- A fully filled invariant-satisfying board is a valid assignment. -/
theorem inv_full_valid (s : NQueenSolver) (hInv : BoardInv s)
    (hFull : ∀ r : Nat, r < s.queens.length → FilledAt s.queens r) :
    ValidFull s.N s.queens := by
  have hne : ∀ (r : Nat) (c : Int), s.queens.get? r = some c → c ≠ -1 := by
    intro r c hg
    obtain ⟨hlt, -⟩ := List.get?_eq_some.mp hg
    obtain ⟨c2, hg2, hc2⟩ := hFull r hlt
    have : c2 = c := Option.some.inj (hg2.symm.trans hg)
    rw [← this]
    exact hc2
  refine ⟨hInv.len_eq, ?_, ?_⟩
  · intro r c hg
    exact hInv.entries r c hg (hne r c hg)
  · intro r1 r2 c1 c2 hg1 hg2 hner
    have hc1 := hne r1 c1 hg1
    have hc2 := hne r2 c2 hg2
    refine ⟨?_, ?_, ?_⟩
    · intro he
      obtain ⟨r0, -, huniq⟩ := hInv.colsU c1 (hInv.fwd r1 c1 hg1 hc1).1
      have e1 : r1 = r0 := huniq r1 ⟨c1, hg1, hc1, rfl⟩
      have e2 : r2 = r0 := huniq r2 ⟨c2, hg2, hc2, he.symm⟩
      exact hner (e1.trans e2.symm)
    · intro he
      obtain ⟨r0, -, huniq⟩ := hInv.diag1U ((r1 : Int) - c1) (hInv.fwd r1 c1 hg1 hc1).2.1
      have e1 : r1 = r0 := huniq r1 ⟨c1, hg1, hc1, rfl⟩
      have e2 : r2 = r0 := huniq r2 ⟨c2, hg2, hc2, he.symm⟩
      exact hner (e1.trans e2.symm)
    · intro he
      obtain ⟨r0, -, huniq⟩ := hInv.diag2U ((r1 : Int) + c1) (hInv.fwd r1 c1 hg1 hc1).2.2
      have e1 : r1 = r0 := huniq r1 ⟨c1, hg1, hc1, rfl⟩
      have e2 : r2 = r0 := huniq r2 ⟨c2, hg2, hc2, he.symm⟩
      exact hner (e1.trans e2.symm)

theorem solveCols_sound (next : NQueenSolver → Option (List Ev × NQueenSolver)) (row : Nat)
    (N0 : Int)
    (hnextR : ∀ s1 evs s2, s1.N = N0 → next s1 = some (evs, s2) → s2 = s1)
    (hnextS : ∀ s1 evs s2, s1.N = N0 → BoardInv s1 →
      (∀ rr : Nat, rr < row + 1 → FilledAt s1.queens rr) →
      next s1 = some (evs, s2) → ∀ qs ∈ solsOf evs, Completion s1 qs) :
    ∀ (cols : List Int) (s : NQueenSolver) (evs : List Ev) (s' : NQueenSolver),
      s.N = N0 → BoardInv s → (∀ rr : Nat, rr < row → FilledAt s.queens rr) →
      (∀ c ∈ cols, 0 ≤ c ∧ c < N0) → s.queens.get? row = some (-1) →
      solveCols next (row : Int) s cols = some (evs, s') →
      ∀ qs ∈ solsOf evs, Completion s qs := by
  intro cols
  induction cols with
  | nil =>
    intro s evs s' hN hInv hBelow hcl hE h qs hq
    rw [solveCols_nil] at h
    have h2 := Option.some.inj h
    rw [Prod.mk.injEq] at h2
    rw [← h2.1] at hq
    cases hq
  | cons c0 cs ih =>
    intro s evs s' hN hInv hBelow hcl hE h qs hq
    by_cases hs : is_safe s (row : Int) c0 = true
    · obtain ⟨s1, evs1, s2, s3, evs2, s4, hp, hn, hr, hc2, he, hs4⟩ :=
        solveCols_cons_safe_some next (row : Int) s c0 cs evs s' hs h
      have hlt : row < s.queens.length := by
        rcases List.get?_eq_some.mp hE with ⟨hh, -⟩
        exact hh
      have hp' := place_queen_natCast s row c0 hlt
      have hs1 : s1 = ⟨s.N, insert c0 s.cols, insert ((row : Int) - c0) s.diag1,
          insert ((row : Int) + c0) s.diag2, s.queens.set row c0⟩ :=
        (Option.some.inj (hp'.symm.trans hp)).symm
      have hq1 : s1.queens = s.queens.set row c0 := by rw [hs1]
      have hN1 : s1.N = s.N := by rw [hs1]
      obtain ⟨hc0a, hc0b⟩ := hcl c0 (List.mem_cons_self c0 cs)
      have hInv1 : BoardInv s1 := by
        rw [hs1]
        exact inv_place_nat s row c0 hInv hE hs hc0a (by rw [hN]; exact hc0b)
      have hFill1 : ∀ rr : Nat, rr < row + 1 → FilledAt s1.queens rr := by
        intro rr hrr
        rw [hq1]
        by_cases hrr2 : rr = row
        · subst hrr2
          exact ⟨c0, lget_set_self s.queens rr c0 hlt, by omega⟩
        · obtain ⟨cv, hgv, hcv⟩ := hBelow rr (by omega)
          exact ⟨cv, by rw [lget_set_ne s.queens row rr c0 (fun hx => hrr2 hx.symm)]; exact hgv,
            hcv⟩
      have hs2 : s2 = s1 := hnextR s1 evs1 s2 (by rw [hN1, hN]) hn
      subst hs2
      have hrt : remove_queen s2 (row : Int) c0 = some s :=
        place_remove_roundtrip s row c0 s2 hE hs hp
      have hs3 : s3 = s := Option.some.inj (hrt.symm.trans hr) |>.symm
      rw [hs3] at hc2
      rw [he] at hq
      rw [solsOf_cons_place, solsOf_append, solsOf_cons_remove] at hq
      rcases List.mem_append.mp hq with hq1m | hq2m
      · -- solution of the sub-search: a completion of s1, hence of s
        have hcomp : Completion s2 qs :=
          hnextS s2 evs1 s2 (by rw [hN1, hN]) hInv1 hFill1 hn qs hq1m
        obtain ⟨hV, hX⟩ := hcomp
        refine ⟨by rw [← hN1]; exact hV, ?_⟩
        intro r c hg hc
        have hrrow : r ≠ row := by
          intro hx
          subst hx
          rw [hE] at hg
          cases hg
          exact hc rfl
        refine hX r c ?_ hc
        rw [hq1, lget_set_ne s.queens row r c0 (fun hx => hrrow hx.symm)]
        exact hg
      · exact ih s evs2 s4 hN hInv hBelow
          (fun x hx => hcl x (List.mem_cons_of_mem c0 hx)) hE hc2 qs hq2m
    · rw [solveCols_cons, if_neg hs] at h
      exact ih s evs s' hN hInv hBelow
        (fun x hx => hcl x (List.mem_cons_of_mem c0 hx)) hE h qs hq

theorem gen_sound : ∀ (fuel : Nat) (s : NQueenSolver) (row : Nat) (evs : List Ev)
    (s' : NQueenSolver), BoardInv s → (∀ rr : Nat, rr < row → FilledAt s.queens rr) →
    ((row : Int) ≤ s.N ∨ s.N ≤ 0) →
    solve_generator fuel s row = some (evs, s') →
    ∀ qs ∈ solsOf evs, Completion s qs := by
  intro fuel
  induction fuel with
  | zero => intro s row evs s' _ _ _ h; cases h
  | succ fuel ih =>
    intro s row evs s' hInv hBelow hr h qs hq
    rw [solve_generator_succ, Option.bind_eq_some] at h
    obtain ⟨row', hne, h⟩ := h
    by_cases heq : (row' : Int) = s.N
    · -- solution branch: the snapshot is the (fully filled) board itself
      rw [if_pos heq] at h
      have h2 := Option.some.inj h
      rw [Prod.mk.injEq] at h2
      rw [← h2.1] at hq
      rw [solsOf_cons_solution] at hq
      rcases List.mem_cons.mp hq with hq1 | hq1
      · subst hq1
        have hFull : ∀ r : Nat, r < s.queens.length → FilledAt s.queens r := by
          intro r hrl
          have hlen := hInv.len_eq
          have hrow' : row' = s.N.toNat := by omega
          by_cases hcase : r < row
          · exact hBelow r hcase
          · exact nextEmpty_scan s.N s.queens row row' hne r (by omega) (by omega)
        exact ⟨inv_full_valid s hInv hFull, fun r c hg _ => hg⟩
      · cases hq1
    · rw [if_neg heq] at h
      by_cases hN0 : s.N ≤ 0
      · rw [colsRange_nil s.N hN0, solveCols_nil] at h
        have h2 := Option.some.inj h
        rw [Prod.mk.injEq] at h2
        rw [← h2.1] at hq
        cases hq
      · have hle : (row : Int) ≤ s.N := by
          rcases hr with hr | hr
          · exact hr
          · exact absurd hr hN0
        have hle' : (row' : Int) ≤ s.N := nextEmpty_le _ _ _ _ hle hne
        have hlt : (row' : Int) < s.N := lt_of_le_of_ne hle' heq
        have hEmpty : s.queens.get? row' = some (-1) := by
          rcases nextEmpty_stop _ _ _ _ hne with h1 | h1
          · exact absurd hlt h1
          · exact h1
        have hBelow' : ∀ rr : Nat, rr < row' → FilledAt s.queens rr := by
          intro rr hrr
          by_cases hcase : rr < row
          · exact hBelow rr hcase
          · exact nextEmpty_scan s.N s.queens row row' hne rr (by omega) hrr
        refine solveCols_sound _ row' s.N ?_ ?_ (colsRange s.N) s evs s' rfl hInv hBelow'
          (colsRange_nonneg s.N) hEmpty h qs hq
        · intro s1 evs1 s2 hN1 hsub
          exact gen_restore fuel s1 (row' + 1) evs1 s2 (by left; rw [hN1]; push_cast; omega) hsub
        · intro s1 evs1 s2 hN1 hInv1 hFill1 hsub qs1 hq1
          exact ih s1 (row' + 1) evs1 s2 hInv1 hFill1
            (by left; rw [hN1]; push_cast; omega) hsub qs1 hq1

/-! ## Totality: with enough fuel the generator never fails -/

theorem solveCols_total (next : NQueenSolver → Option (List Ev × NQueenSolver)) (row : Nat)
    (N0 : Int)
    (hnextR : ∀ s1 evs s2, s1.N = N0 → next s1 = some (evs, s2) → s2 = s1)
    (hnextT : ∀ s1, s1.N = N0 → BoardInv s1 → ((row : Int) + 1 ≤ s1.N) →
      (next s1).isSome = true) :
    ∀ (cols : List Int) (s : NQueenSolver), s.N = N0 → BoardInv s → (row : Int) < s.N →
      s.queens.get? row = some (-1) → (∀ c ∈ cols, 0 ≤ c ∧ c < N0) →
      (solveCols next (row : Int) s cols).isSome = true := by
  intro cols
  induction cols with
  | nil =>
    intro s hN hInv hlt hE hcl
    rw [solveCols_nil]
    rfl
  | cons c0 cs ih =>
    intro s hN hInv hlt hE hcl
    rw [solveCols_cons]
    by_cases hs : is_safe s (row : Int) c0 = true
    · rw [if_pos hs]
      have hltl : row < s.queens.length := by
        rcases List.get?_eq_some.mp hE with ⟨hh, -⟩
        exact hh
      have hp' := place_queen_natCast s row c0 hltl
      rw [hp', Option.some_bind]
      set s1 : NQueenSolver := ⟨s.N, insert c0 s.cols, insert ((row : Int) - c0) s.diag1,
        insert ((row : Int) + c0) s.diag2, s.queens.set row c0⟩ with hs1def
      obtain ⟨hc0a, hc0b⟩ := hcl c0 (List.mem_cons_self c0 cs)
      have hInv1 : BoardInv s1 :=
        inv_place_nat s row c0 hInv hE hs hc0a (by rw [hN]; exact hc0b)
      have hN1 : s1.N = N0 := by rw [hs1def]; exact hN
      have hsub := hnextT s1 hN1 hInv1 (by rw [hs1def]; show (row : Int) + 1 ≤ s.N; omega)
      obtain ⟨p, hn⟩ := Option.isSome_iff_exists.mp hsub
      obtain ⟨evs1, s2⟩ := p
      rw [hn, Option.some_bind]
      have hs2 : s2 = s1 := hnextR s1 evs1 s2 hN1 hn
      subst hs2
      have hrt : remove_queen s1 (row : Int) c0 = some s :=
        place_remove_roundtrip s row c0 s1 hE hs hp'
      rw [hrt, Option.some_bind]
      have htail := ih s hN hInv hlt hE (fun x hx => hcl x (List.mem_cons_of_mem c0 hx))
      obtain ⟨q, hc2⟩ := Option.isSome_iff_exists.mp htail
      rw [hc2, Option.some_bind]
      rfl
    · rw [if_neg hs]
      exact ih s hN hInv hlt hE (fun x hx => hcl x (List.mem_cons_of_mem c0 hx))

theorem gen_total : ∀ (fuel : Nat) (s : NQueenSolver) (row : Nat), BoardInv s →
    (row : Int) ≤ s.N → s.N.toNat + 1 - row ≤ fuel →
    (solve_generator fuel s row).isSome = true := by
  intro fuel
  induction fuel with
  | zero =>
    intro s row hInv hle hfuel
    exfalso
    omega
  | succ fuel ih =>
    intro s row hInv hle hfuel
    rw [solve_generator_succ]
    have hne0 := nextEmpty_total s.N s.queens row hInv.len_eq
    obtain ⟨row', hne⟩ := Option.isSome_iff_exists.mp hne0
    rw [hne, Option.some_bind]
    by_cases heq : (row' : Int) = s.N
    · rw [if_pos heq]
      rfl
    · rw [if_neg heq]
      have hge := nextEmpty_ge s.N s.queens row row' hne
      have hle' : (row' : Int) ≤ s.N := nextEmpty_le _ _ _ _ hle hne
      have hlt : (row' : Int) < s.N := lt_of_le_of_ne hle' heq
      have hEmpty : s.queens.get? row' = some (-1) := by
        rcases nextEmpty_stop _ _ _ _ hne with h1 | h1
        · exact absurd hlt h1
        · exact h1
      refine solveCols_total _ row' s.N ?_ ?_ (colsRange s.N) s rfl hInv hlt hEmpty
        (colsRange_nonneg s.N)
      · intro s1 evs1 s2 hN1 hsub
        exact gen_restore fuel s1 (row' + 1) evs1 s2 (by left; rw [hN1]; push_cast; omega) hsub
      · intro s1 hN1 hInv1 hle1
        refine ih s1 (row' + 1) hInv1 (by push_cast; omega) ?_
        have : s1.N = s.N := hN1
        omega

/-! ## Completeness: every valid completion is emitted as a solution -/

theorem solveCols_complete (next : NQueenSolver → Option (List Ev × NQueenSolver)) (row : Nat)
    (N0 : Int)
    (hnextR : ∀ s1 evs s2, s1.N = N0 → next s1 = some (evs, s2) → s2 = s1)
    (hnextC : ∀ s1 evs s2 qs, s1.N = N0 → BoardInv s1 →
      (∀ rr : Nat, rr < row + 1 → FilledAt s1.queens rr) →
      next s1 = some (evs, s2) → Completion s1 qs → qs ∈ solsOf evs) :
    ∀ (cols : List Int) (s : NQueenSolver) (evs : List Ev) (s' : NQueenSolver) (qs : List Int),
      s.N = N0 → BoardInv s → (∀ rr : Nat, rr < row → FilledAt s.queens rr) →
      (∀ c ∈ cols, 0 ≤ c ∧ c < N0) → s.queens.get? row = some (-1) →
      solveCols next (row : Int) s cols = some (evs, s') →
      Completion s qs → (∃ c, qs.get? row = some c ∧ c ∈ cols) → qs ∈ solsOf evs := by
  intro cols
  induction cols with
  | nil =>
    intro s evs s' qs hN hInv hBelow hcl hE h hcomp hex
    obtain ⟨c, -, hcmem⟩ := hex
    cases hcmem
  | cons c0 cs ih =>
    intro s evs s' qs hN hInv hBelow hcl hE h hcomp hex
    obtain ⟨c, hqrow, hcmem⟩ := hex
    obtain ⟨⟨hVlen, hVent, hVpair⟩, hX⟩ := hcomp
    by_cases hceq : c = c0
    · subst hceq
      -- the column of `qs` at this row: the branch must be safe
      have hsafe : is_safe s (row : Int) c = true := by
        rw [is_safe_iff]
        refine ⟨?_, ?_, ?_⟩
        · intro hmem
          obtain ⟨r0, ⟨c0', hg0, hc0', hk0⟩, -⟩ := hInv.colsU c hmem
          have hr0row : r0 ≠ row := by
            intro hx
            subst hx
            rw [hE] at hg0
            cases hg0
            exact hc0' rfl
          have hq0 : qs.get? r0 = some c0' := hX r0 c0' hg0 hc0'
          have := (hVpair r0 row c0' c hq0 hqrow hr0row).1
          exact this (hk0)
        · intro hmem
          obtain ⟨r0, ⟨c0', hg0, hc0', hk0⟩, -⟩ := hInv.diag1U ((row : Int) - c) hmem
          have hr0row : r0 ≠ row := by
            intro hx
            subst hx
            rw [hE] at hg0
            cases hg0
            exact hc0' rfl
          have hq0 : qs.get? r0 = some c0' := hX r0 c0' hg0 hc0'
          have := (hVpair r0 row c0' c hq0 hqrow hr0row).2.1
          exact this hk0
        · intro hmem
          obtain ⟨r0, ⟨c0', hg0, hc0', hk0⟩, -⟩ := hInv.diag2U ((row : Int) + c) hmem
          have hr0row : r0 ≠ row := by
            intro hx
            subst hx
            rw [hE] at hg0
            cases hg0
            exact hc0' rfl
          have hq0 : qs.get? r0 = some c0' := hX r0 c0' hg0 hc0'
          have := (hVpair r0 row c0' c hq0 hqrow hr0row).2.2
          exact this hk0
      obtain ⟨s1, evs1, s2, s3, evs2, s4, hp, hn, hr, hc2, he, hs4⟩ :=
        solveCols_cons_safe_some next (row : Int) s c cs evs s' hsafe h
      have hlt : row < s.queens.length := by
        rcases List.get?_eq_some.mp hE with ⟨hh, -⟩
        exact hh
      have hp' := place_queen_natCast s row c hlt
      have hs1 : s1 = ⟨s.N, insert c s.cols, insert ((row : Int) - c) s.diag1,
          insert ((row : Int) + c) s.diag2, s.queens.set row c⟩ :=
        (Option.some.inj (hp'.symm.trans hp)).symm
      have hq1 : s1.queens = s.queens.set row c := by rw [hs1]
      have hN1 : s1.N = s.N := by rw [hs1]
      obtain ⟨hc0a, hc0b⟩ := hcl c (List.mem_cons_self c cs)
      have hInv1 : BoardInv s1 := by
        rw [hs1]
        exact inv_place_nat s row c hInv hE hsafe hc0a (by rw [hN]; exact hc0b)
      have hFill1 : ∀ rr : Nat, rr < row + 1 → FilledAt s1.queens rr := by
        intro rr hrr
        rw [hq1]
        by_cases hrr2 : rr = row
        · subst hrr2
          exact ⟨c, lget_set_self s.queens rr c hlt, by omega⟩
        · obtain ⟨cv, hgv, hcv⟩ := hBelow rr (by omega)
          exact ⟨cv, by rw [lget_set_ne s.queens row rr c (fun hx => hrr2 hx.symm)]; exact hgv,
            hcv⟩
      have hcomp1 : Completion s1 qs := by
        refine ⟨by rw [show s1.N = s.N from hN1]; exact ⟨hVlen, hVent, hVpair⟩, ?_⟩
        intro r c' hg hc'
        rw [hq1] at hg
        by_cases hrr : r = row
        · subst hrr
          rw [lget_set_self s.queens r c hlt] at hg
          cases hg
          exact hqrow
        · rw [lget_set_ne s.queens row r c (fun hx => hrr hx.symm)] at hg
          exact hX r c' hg hc'
      have hmem1 : qs ∈ solsOf evs1 :=
        hnextC s1 evs1 s2 qs (by rw [hN1, hN]) hInv1 hFill1 hn hcomp1
      rw [he, solsOf_cons_place, solsOf_append]
      exact List.mem_append_left _ hmem1
    · -- the queen of `qs` at this row sits in a later column
      have hcmem' : c ∈ cs := by
        rcases List.mem_cons.mp hcmem with hx | hx
        · exact absurd hx hceq
        · exact hx
      by_cases hs : is_safe s (row : Int) c0 = true
      · obtain ⟨s1, evs1, s2, s3, evs2, s4, hp, hn, hr, hc2, he, hs4⟩ :=
          solveCols_cons_safe_some next (row : Int) s c0 cs evs s' hs h
        have hs2 : s2 = s1 := hnextR s1 evs1 s2 (by rw [place_queen_N s _ _ _ hp, hN]) hn
        subst hs2
        have hrt : remove_queen s2 (row : Int) c0 = some s :=
          place_remove_roundtrip s row c0 s2 hE hs hp
        have hs3 : s3 = s := Option.some.inj (hrt.symm.trans hr) |>.symm
        rw [hs3] at hc2
        have hmem2 : qs ∈ solsOf evs2 :=
          ih s evs2 s4 qs hN hInv hBelow (fun x hx => hcl x (List.mem_cons_of_mem c0 hx)) hE
            hc2 ⟨⟨hVlen, hVent, hVpair⟩, hX⟩ ⟨c, hqrow, hcmem'⟩
        rw [he, solsOf_cons_place, solsOf_append, solsOf_cons_remove]
        exact List.mem_append_right _ hmem2
      · rw [solveCols_cons, if_neg hs] at h
        exact ih s evs s' qs hN hInv hBelow (fun x hx => hcl x (List.mem_cons_of_mem c0 hx)) hE
          h ⟨⟨hVlen, hVent, hVpair⟩, hX⟩ ⟨c, hqrow, hcmem'⟩

theorem gen_complete : ∀ (fuel : Nat) (s : NQueenSolver) (row : Nat) (evs : List Ev)
    (s' : NQueenSolver) (qs : List Int), BoardInv s →
    (∀ rr : Nat, rr < row → FilledAt s.queens rr) → (row : Int) ≤ s.N →
    solve_generator fuel s row = some (evs, s') → Completion s qs → qs ∈ solsOf evs := by
  intro fuel
  induction fuel with
  | zero => intro s row evs s' qs _ _ _ h; cases h
  | succ fuel ih =>
    intro s row evs s' qs hInv hBelow hle h hcomp
    rw [solve_generator_succ, Option.bind_eq_some] at h
    obtain ⟨row', hne, h⟩ := h
    obtain ⟨⟨hVlen, hVent, hVpair⟩, hX⟩ := hcomp
    by_cases heq : (row' : Int) = s.N
    · -- the board is full: the unique completion is the board itself
      rw [if_pos heq] at h
      have h2 := Option.some.inj h
      rw [Prod.mk.injEq] at h2
      rw [← h2.1, solsOf_cons_solution]
      have hlen := hInv.len_eq
      have hrow' : row' = s.N.toNat := by omega
      have hFull : ∀ r : Nat, r < s.queens.length → FilledAt s.queens r := by
        intro r hrl
        by_cases hcase : r < row
        · exact hBelow r hcase
        · exact nextEmpty_scan s.N s.queens row row' hne r (by omega) (by omega)
      have hqeq : qs = s.queens := by
        apply List.ext
        intro i
        by_cases hi : i < s.queens.length
        · obtain ⟨cv, hgv, hcv⟩ := hFull i hi
          rw [hgv]
          exact hX i cv hgv hcv
        · rw [List.get?_eq_none.mpr (by omega), List.get?_eq_none.mpr (by omega)]
      rw [hqeq]
      exact List.mem_cons_self _ _
    · rw [if_neg heq] at h
      by_cases hN0 : s.N ≤ 0
      · -- under `row ≤ N ≤ 0` the first empty row is 0 = N, contradiction
        exfalso
        have hrow0 : row = 0 := by omega
        have hN00 : s.N = 0 := by omega
        subst hrow0
        rw [nextEmpty_eq, if_neg (by omega)] at hne
        have : row' = 0 := (Option.some.inj hne).symm
        omega
      · have hle' : (row' : Int) ≤ s.N := nextEmpty_le _ _ _ _ hle hne
        have hlt : (row' : Int) < s.N := lt_of_le_of_ne hle' heq
        have hEmpty : s.queens.get? row' = some (-1) := by
          rcases nextEmpty_stop _ _ _ _ hne with h1 | h1
          · exact absurd hlt h1
          · exact h1
        have hBelow' : ∀ rr : Nat, rr < row' → FilledAt s.queens rr := by
          intro rr hrr
          by_cases hcase : rr < row
          · exact hBelow rr hcase
          · exact nextEmpty_scan s.N s.queens row row' hne rr (by omega) hrr
        have hqrow : ∃ c, qs.get? row' = some c ∧ c ∈ colsRange s.N := by
          cases hg : qs.get? row' with
          | none =>
            rw [List.get?_eq_none] at hg
            have hlen := hInv.len_eq
            omega
          | some cv =>
            obtain ⟨hcv0, hcv1⟩ := hVent row' cv hg
            exact ⟨cv, rfl, colsRange_mem s.N cv hcv0 hcv1⟩
        refine solveCols_complete _ row' s.N ?_ ?_ (colsRange s.N) s evs s' qs rfl hInv
          hBelow' (colsRange_nonneg s.N) hEmpty h ⟨⟨hVlen, hVent, hVpair⟩, hX⟩ hqrow
        · intro s1 evs1 s2 hN1 hsub
          exact gen_restore fuel s1 (row' + 1) evs1 s2 (by left; rw [hN1]; push_cast; omega) hsub
        · intro s1 evs1 s2 qs1 hN1 hInv1 hFill1 hsub hcomp1
          exact ih s1 (row' + 1) evs1 s2 qs1 hInv1 hFill1
            (by rw [hN1]; push_cast; omega) hsub hcomp1

/-! ## The emitted solutions are pairwise distinct -/

theorem solveCols_nodup (next : NQueenSolver → Option (List Ev × NQueenSolver)) (row : Nat)
    (N0 : Int)
    (hnextR : ∀ s1 evs s2, s1.N = N0 → next s1 = some (evs, s2) → s2 = s1)
    (hnextS : ∀ s1 evs s2, s1.N = N0 → BoardInv s1 →
      (∀ rr : Nat, rr < row + 1 → FilledAt s1.queens rr) →
      next s1 = some (evs, s2) → ∀ qs ∈ solsOf evs, Completion s1 qs)
    (hnextN : ∀ s1 evs s2, s1.N = N0 → BoardInv s1 →
      (∀ rr : Nat, rr < row + 1 → FilledAt s1.queens rr) →
      next s1 = some (evs, s2) → (solsOf evs).Nodup) :
    ∀ (cols : List Int) (s : NQueenSolver) (evs : List Ev) (s' : NQueenSolver),
      s.N = N0 → BoardInv s → (∀ rr : Nat, rr < row → FilledAt s.queens rr) →
      cols.Nodup → (∀ c ∈ cols, 0 ≤ c ∧ c < N0) → s.queens.get? row = some (-1) →
      solveCols next (row : Int) s cols = some (evs, s') →
      (solsOf evs).Nodup ∧ ∀ qs ∈ solsOf evs, ∃ c ∈ cols, qs.get? row = some c := by
  intro cols
  induction cols with
  | nil =>
    intro s evs s' hN hInv hBelow hnd hcl hE h
    rw [solveCols_nil] at h
    have h2 := Option.some.inj h
    rw [Prod.mk.injEq] at h2
    rw [← h2.1]
    exact ⟨List.nodup_nil, fun qs hq => absurd hq (List.not_mem_nil qs)⟩
  | cons c0 cs ih =>
    intro s evs s' hN hInv hBelow hnd hcl hE h
    by_cases hs : is_safe s (row : Int) c0 = true
    · obtain ⟨s1, evs1, s2, s3, evs2, s4, hp, hn, hr, hc2, he, hs4⟩ :=
        solveCols_cons_safe_some next (row : Int) s c0 cs evs s' hs h
      have hlt : row < s.queens.length := by
        rcases List.get?_eq_some.mp hE with ⟨hh, -⟩
        exact hh
      have hp' := place_queen_natCast s row c0 hlt
      have hs1 : s1 = ⟨s.N, insert c0 s.cols, insert ((row : Int) - c0) s.diag1,
          insert ((row : Int) + c0) s.diag2, s.queens.set row c0⟩ :=
        (Option.some.inj (hp'.symm.trans hp)).symm
      have hq1 : s1.queens = s.queens.set row c0 := by rw [hs1]
      have hN1 : s1.N = s.N := by rw [hs1]
      obtain ⟨hc0a, hc0b⟩ := hcl c0 (List.mem_cons_self c0 cs)
      have hInv1 : BoardInv s1 := by
        rw [hs1]
        exact inv_place_nat s row c0 hInv hE hs hc0a (by rw [hN]; exact hc0b)
      have hFill1 : ∀ rr : Nat, rr < row + 1 → FilledAt s1.queens rr := by
        intro rr hrr
        rw [hq1]
        by_cases hrr2 : rr = row
        · subst hrr2
          exact ⟨c0, lget_set_self s.queens rr c0 hlt, by omega⟩
        · obtain ⟨cv, hgv, hcv⟩ := hBelow rr (by omega)
          exact ⟨cv, by rw [lget_set_ne s.queens row rr c0 (fun hx => hrr2 hx.symm)]; exact hgv,
            hcv⟩
      have hs2 : s2 = s1 := hnextR s1 evs1 s2 (by rw [hN1, hN]) hn
      subst hs2
      have hrt : remove_queen s2 (row : Int) c0 = some s :=
        place_remove_roundtrip s row c0 s2 hE hs hp
      have hs3 : s3 = s := Option.some.inj (hrt.symm.trans hr) |>.symm
      rw [hs3] at hc2
      -- every solution of the sub-search puts column c0 at this row
      have hhead : ∀ qs ∈ solsOf evs1, qs.get? row = some c0 := by
        intro qs hq
        have hcomp := hnextS s2 evs1 s2 (by rw [hN1, hN]) hInv1 hFill1 hn qs hq
        refine hcomp.2 row c0 ?_ (by omega)
        rw [hq1]
        exact lget_set_self s.queens row c0 hlt
      have hheadnd : (solsOf evs1).Nodup :=
        hnextN s2 evs1 s2 (by rw [hN1, hN]) hInv1 hFill1 hn
      obtain ⟨htailnd, htailcol⟩ := ih s evs2 s4 hN hInv hBelow
        (List.Nodup.of_cons hnd) (fun x hx => hcl x (List.mem_cons_of_mem c0 hx)) hE hc2
      have hc0cs : c0 ∉ cs := by
        have := List.nodup_cons.mp hnd
        exact this.1
      rw [he, solsOf_cons_place, solsOf_append, solsOf_cons_remove]
      constructor
      · refine List.Nodup.append hheadnd htailnd ?_
        intro qs hq1m hq2m
        obtain ⟨c, hcm, hgc⟩ := htailcol qs hq2m
        have hg0 : qs.get? row = some c0 := hhead qs hq1m
        rw [hg0] at hgc
        have : c = c0 := (Option.some.inj hgc).symm
        subst this
        exact hc0cs hcm
      · intro qs hq
        rcases List.mem_append.mp hq with hq1m | hq2m
        · exact ⟨c0, List.mem_cons_self c0 cs, hhead qs hq1m⟩
        · obtain ⟨c, hcm, hgc⟩ := htailcol qs hq2m
          exact ⟨c, List.mem_cons_of_mem c0 hcm, hgc⟩
    · rw [solveCols_cons, if_neg hs] at h
      obtain ⟨hnd2, hcol2⟩ := ih s evs s' hN hInv hBelow (List.Nodup.of_cons hnd)
        (fun x hx => hcl x (List.mem_cons_of_mem c0 hx)) hE h
      exact ⟨hnd2, fun qs hq =>
        (hcol2 qs hq).imp (fun c hc => ⟨List.mem_cons_of_mem c0 hc.1, hc.2⟩)⟩

theorem gen_nodup : ∀ (fuel : Nat) (s : NQueenSolver) (row : Nat) (evs : List Ev)
    (s' : NQueenSolver), BoardInv s → (∀ rr : Nat, rr < row → FilledAt s.queens rr) →
    ((row : Int) ≤ s.N ∨ s.N ≤ 0) →
    solve_generator fuel s row = some (evs, s') → (solsOf evs).Nodup := by
  intro fuel
  induction fuel with
  | zero => intro s row evs s' _ _ _ h; cases h
  | succ fuel ih =>
    intro s row evs s' hInv hBelow hr h
    rw [solve_generator_succ, Option.bind_eq_some] at h
    obtain ⟨row', hne, h⟩ := h
    by_cases heq : (row' : Int) = s.N
    · rw [if_pos heq] at h
      have h2 := Option.some.inj h
      rw [Prod.mk.injEq] at h2
      rw [← h2.1, solsOf_cons_solution]
      exact List.nodup_cons.mpr ⟨List.not_mem_nil _, List.nodup_nil⟩
    · rw [if_neg heq] at h
      by_cases hN0 : s.N ≤ 0
      · rw [colsRange_nil s.N hN0, solveCols_nil] at h
        have h2 := Option.some.inj h
        rw [Prod.mk.injEq] at h2
        rw [← h2.1]
        exact List.nodup_nil
      · have hle : (row : Int) ≤ s.N := by
          rcases hr with hr | hr
          · exact hr
          · exact absurd hr hN0
        have hle' : (row' : Int) ≤ s.N := nextEmpty_le _ _ _ _ hle hne
        have hlt : (row' : Int) < s.N := lt_of_le_of_ne hle' heq
        have hEmpty : s.queens.get? row' = some (-1) := by
          rcases nextEmpty_stop _ _ _ _ hne with h1 | h1
          · exact absurd hlt h1
          · exact h1
        have hBelow' : ∀ rr : Nat, rr < row' → FilledAt s.queens rr := by
          intro rr hrr
          by_cases hcase : rr < row
          · exact hBelow rr hcase
          · exact nextEmpty_scan s.N s.queens row row' hne rr (by omega) hrr
        refine (solveCols_nodup _ row' s.N ?_ ?_ ?_ (colsRange s.N) s evs s' rfl hInv hBelow'
          (colsRange_nodup s.N) (colsRange_nonneg s.N) hEmpty h).1
        · intro s1 evs1 s2 hN1 hsub
          exact gen_restore fuel s1 (row' + 1) evs1 s2 (by left; rw [hN1]; push_cast; omega) hsub
        · intro s1 evs1 s2 hN1 hInv1 hFill1 hsub qs1 hq1
          exact gen_sound fuel s1 (row' + 1) evs1 s2 hInv1 hFill1
            (by left; rw [hN1]; push_cast; omega) hsub qs1 hq1
        · intro s1 evs1 s2 hN1 hInv1 hFill1 hsub
          exact ih s1 (row' + 1) evs1 s2 hInv1 hFill1
            (by left; rw [hN1]; push_cast; omega) hsub

/-! ## The source's cursor-based recursion matches the spec's
"globally smallest empty row" recursion -/

theorem specSearch_succ (fuel : Nat) (s : NQueenSolver) :
    specSearch (fuel + 1) s =
      (nextEmpty s.N s.queens 0).bind (fun row =>
        if (row : Int) = s.N then some ([Ev.solution s.queens], s)
        else solveCols (fun s1 => specSearch fuel s1) (row : Int) s (colsRange s.N)) := by
  simp only [specSearch]
  cases nextEmpty s.N s.queens 0 with
  | none => rfl
  | some row => rfl

theorem solveCols_congr (next1 next2 : NQueenSolver → Option (List Ev × NQueenSolver))
    (row : Nat) (N0 : Int) (len0 : Nat)
    (hnextR : ∀ s1 evs s2, s1.N = N0 → next1 s1 = some (evs, s2) → s2 = s1)
    (hnext : ∀ s1, s1.N = N0 → s1.queens.length = len0 →
      (∀ rr : Nat, rr < row + 1 → FilledAt s1.queens rr) → next1 s1 = next2 s1) :
    ∀ (cols : List Int) (s : NQueenSolver), s.N = N0 → s.queens.length = len0 →
      (∀ rr : Nat, rr < row → FilledAt s.queens rr) → (∀ c ∈ cols, 0 ≤ c) →
      s.queens.get? row = some (-1) →
      solveCols next1 (row : Int) s cols = solveCols next2 (row : Int) s cols := by
  intro cols
  induction cols with
  | nil => intro s _ _ _ _ _; rfl
  | cons c0 cs ih =>
    intro s hN hlen hBelow hcl hE
    rw [solveCols_cons, solveCols_cons]
    by_cases hs : is_safe s (row : Int) c0 = true
    · rw [if_pos hs, if_pos hs]
      have hlt : row < s.queens.length := by
        rcases List.get?_eq_some.mp hE with ⟨hh, -⟩
        exact hh
      have hp' := place_queen_natCast s row c0 hlt
      rw [hp', Option.some_bind, Option.some_bind]
      set s1 : NQueenSolver := ⟨s.N, insert c0 s.cols, insert ((row : Int) - c0) s.diag1,
        insert ((row : Int) + c0) s.diag2, s.queens.set row c0⟩ with hs1def
      have hN1 : s1.N = N0 := by rw [hs1def]; exact hN
      have hlen1 : s1.queens.length = len0 := by
        rw [hs1def]
        show (s.queens.set row c0).length = len0
        rw [List.length_set]
        exact hlen
      have hc0a : (0 : Int) ≤ c0 := hcl c0 (List.mem_cons_self c0 cs)
      have hFill1 : ∀ rr : Nat, rr < row + 1 → FilledAt s1.queens rr := by
        intro rr hrr
        show FilledAt (s.queens.set row c0) rr
        by_cases hrr2 : rr = row
        · subst hrr2
          exact ⟨c0, lget_set_self s.queens rr c0 hlt, by omega⟩
        · obtain ⟨cv, hgv, hcv⟩ := hBelow rr (by omega)
          exact ⟨cv, by rw [lget_set_ne s.queens row rr c0 (fun hx => hrr2 hx.symm)]; exact hgv,
            hcv⟩
      have hne12 : next1 s1 = next2 s1 := hnext s1 hN1 hlen1 hFill1
      rw [hne12]
      cases hn2 : next2 s1 with
      | none => rfl
      | some p =>
        obtain ⟨evs1, s2⟩ := p
        rw [Option.some_bind, Option.some_bind]
        have hs2 : s2 = s1 := hnextR s1 evs1 s2 hN1 (by rw [hne12]; exact hn2)
        subst hs2
        have hrt : remove_queen s1 (row : Int) c0 = some s :=
          place_remove_roundtrip s row c0 s1 hE hs hp'
        rw [hrt, Option.some_bind, Option.some_bind]
        rw [ih s hN hlen hBelow (fun x hx => hcl x (List.mem_cons_of_mem c0 hx)) hE]
    · rw [if_neg hs, if_neg hs]
      exact ih s hN hlen hBelow (fun x hx => hcl x (List.mem_cons_of_mem c0 hx)) hE

theorem gen_spec_eq : ∀ (fuel : Nat) (s : NQueenSolver) (row : Nat),
    s.queens.length = s.N.toNat → (∀ rr : Nat, rr < row → FilledAt s.queens rr) →
    solve_generator fuel s row = specSearch fuel s := by
  intro fuel
  induction fuel with
  | zero => intro s row _ _; rfl
  | succ fuel ih =>
    intro s row hlen hBelow
    rw [solve_generator_succ, specSearch_succ]
    have hnnEq : nextEmpty s.N s.queens 0 = nextEmpty s.N s.queens row := by
      by_cases hz : row = 0
      · rw [hz]
      · obtain ⟨cv, hgv, -⟩ := hBelow (row - 1) (by omega)
        obtain ⟨hklt, -⟩ := List.get?_eq_some.mp hgv
        exact nextEmpty_from_zero s.N s.queens row (by omega) hBelow
    rw [← hnnEq]
    cases hne : nextEmpty s.N s.queens 0 with
    | none => rfl
    | some row' =>
      rw [Option.some_bind, Option.some_bind]
      by_cases heq : (row' : Int) = s.N
      · rw [if_pos heq, if_pos heq]
      · rw [if_neg heq, if_neg heq]
        by_cases hN0 : s.N ≤ 0
        · rw [colsRange_nil s.N hN0, solveCols_nil, solveCols_nil]
        · have hle' : (row' : Int) ≤ s.N := nextEmpty_le _ _ 0 row' (by omega) hne
          have hlt : (row' : Int) < s.N := lt_of_le_of_ne hle' heq
          have hEmpty : s.queens.get? row' = some (-1) := by
            rcases nextEmpty_stop _ _ _ _ hne with h1 | h1
            · exact absurd hlt h1
            · exact h1
          have hBelow' : ∀ rr : Nat, rr < row' → FilledAt s.queens rr := by
            intro rr hrr
            exact nextEmpty_scan s.N s.queens 0 row' hne rr (by omega) hrr
          refine solveCols_congr _ _ row' s.N s.queens.length ?_ ?_ (colsRange s.N) s rfl rfl
            hBelow' (fun x hx => (colsRange_nonneg s.N x hx).1) hEmpty
          · intro s1 evs1 s2 hN1 hsub
            exact gen_restore fuel s1 (row' + 1) evs1 s2
              (by left; rw [hN1]; push_cast; omega) hsub
          · intro s1 hN1 hlen1 hFill1
            exact ih s1 (row' + 1) (by rw [hlen1, hlen, hN1]) hFill1

/-! ## The brute-force solution count -/

theorem tuples_mem (n : Nat) : ∀ (k : Nat) (qs : List Int),
    qs ∈ tuples n k ↔ qs.length = k ∧ ∀ c ∈ qs, 0 ≤ c ∧ c < (n : Int) := by
  intro k
  induction k with
  | zero =>
    intro qs
    constructor
    · intro h
      rcases List.mem_singleton.mp h with rfl
      exact ⟨rfl, fun c hc => absurd hc (List.not_mem_nil c)⟩
    · rintro ⟨hlen, -⟩
      rw [List.length_eq_zero] at hlen
      rw [hlen]
      exact List.mem_singleton.mpr rfl
  | succ k ih =>
    intro qs
    rw [tuples]
    simp only [List.mem_flatMap, List.mem_map, List.mem_range]
    constructor
    · rintro ⟨c, hc, t, ht, rfl⟩
      obtain ⟨htlen, htent⟩ := ih t |>.mp ht
      refine ⟨by rw [List.length_cons, htlen], ?_⟩
      intro x hx
      rcases List.mem_cons.mp hx with rfl | hx
      · constructor
        · exact Int.natCast_nonneg c
        · exact_mod_cast hc
      · exact htent x hx
    · rintro ⟨hlen, hent⟩
      cases qs with
      | nil => cases hlen
      | cons c0 t =>
        obtain ⟨h0, h1⟩ := hent c0 (List.mem_cons_self c0 t)
        refine ⟨c0.toNat, by omega, t, ?_, by rw [Int.toNat_of_nonneg h0]⟩
        refine (ih t).mpr ⟨by simpa using hlen, ?_⟩
        intro x hx
        exact hent x (List.mem_cons_of_mem c0 hx)

theorem tuples_nodup (n : Nat) : ∀ k : Nat, (tuples n k).Nodup := by
  intro k
  induction k with
  | zero => exact List.nodup_singleton []
  | succ k ih =>
    rw [tuples, List.nodup_flatMap]
    constructor
    · intro x _
      exact ih.map (fun t1 t2 h => by injection h)
    · refine (List.nodup_range n).imp ?_
      intro a b hab qs hqa hqb
      obtain ⟨t1, -, rfl⟩ := List.mem_map.mp hqa
      obtain ⟨t2, -, ht2⟩ := List.mem_map.mp hqb
      have : (b : Int) = (a : Int) := by injection ht2
      exact hab (by exact_mod_cast this.symm)

theorem okBoard_iff (n : Int) (qs : List Int) : okBoard n qs = true ↔ ValidFull n qs := by
  rw [okBoard]
  simp only [Bool.and_eq_true, decide_eq_true_eq, List.all_eq_true, Bool.or_eq_true]
  constructor
  · rintro ⟨⟨hlen, hent⟩, hpair⟩
    refine ⟨hlen, ?_, ?_⟩
    · intro r c hg
      exact hent c (List.mem_iff_get?.mpr ⟨r, hg⟩)
    · intro r1 r2 c1 c2 hg1 hg2 hne
      obtain ⟨hr1, -⟩ := List.get?_eq_some.mp hg1
      obtain ⟨hr2, -⟩ := List.get?_eq_some.mp hg2
      have hp := hpair r1 (List.mem_range.mpr hr1) r2 (List.mem_range.mpr hr2)
      rcases hp with hp | hp
      · exact absurd hp hne
      · rw [hg1, hg2] at hp
        have hp' : noAttackB r1 c1 r2 c2 = true := hp
        rw [noAttackB] at hp'
        simp only [Bool.and_eq_true, decide_eq_true_eq] at hp'
        exact ⟨hp'.1.1, hp'.1.2, hp'.2⟩
  · rintro ⟨hlen, hent, hpair⟩
    refine ⟨⟨hlen, ?_⟩, ?_⟩
    · intro c hc
      obtain ⟨r, hg⟩ := List.mem_iff_get?.mp hc
      exact hent r c hg
    · intro i hi j hj
      by_cases hij : i = j
      · exact Or.inl hij
      · right
        rw [List.mem_range] at hi hj
        cases hgi : qs.get? i with
        | none => rfl
        | some ci =>
          cases hgj : qs.get? j with
          | none => rfl
          | some cj =>
            show noAttackB i ci j cj = true
            rw [noAttackB]
            simp only [Bool.and_eq_true, decide_eq_true_eq]
            obtain ⟨ha, hb, hc2⟩ := hpair i j ci cj hgi hgj hij
            exact ⟨⟨ha, hb⟩, hc2⟩

theorem solutionBoards_mem (n : Nat) (qs : List Int) :
    qs ∈ solutionBoards n ↔ ValidFull (n : Int) qs := by
  rw [solutionBoards, List.mem_filter]
  constructor
  · rintro ⟨-, hok⟩
    exact (okBoard_iff _ _).mp hok
  · intro hV
    refine ⟨?_, (okBoard_iff _ _).mpr hV⟩
    refine (tuples_mem n n qs).mpr ⟨?_, ?_⟩
    · rw [hV.1]
      omega
    · intro c hc
      obtain ⟨r, hg⟩ := List.mem_iff_get?.mp hc
      exact hV.2.1 r c hg

theorem solutionBoards_nodup (n : Nat) : (solutionBoards n).Nodup :=
  (tuples_nodup n n).filter _

/-- The number of solution events of a complete unseeded search equals the
brute-force n-queens solution count. -/
theorem count_eq (n : Nat) : solutionCount n = nQueensCount n := by
  have hInv := inv_empty (n : Int)
  have hlen0 : (emptySolver (n : Int)).queens.length = n := by
    show (List.replicate (n : Int).toNat (-1 : Int)).length = n
    rw [List.length_replicate]
    omega
  have htot := gen_total (n + 1) (emptySolver (n : Int)) 0 hInv
    (by show ((0 : Nat) : Int) ≤ (n : Int); push_cast; omega)
    (by show (n : Int).toNat + 1 - 0 ≤ n + 1; omega)
  obtain ⟨p, hrun⟩ := Option.isSome_iff_exists.mp htot
  obtain ⟨evs, s'⟩ := p
  have hBelow0 : ∀ rr : Nat, rr < 0 → FilledAt (emptySolver (n : Int)).queens rr :=
    fun rr hrr => absurd hrr (Nat.not_lt_zero rr)
  have hcount : solutionCount n = (solsOf evs).length := by
    rw [solutionCount, hrun]
  have hmem : ∀ qs, qs ∈ solsOf evs ↔ qs ∈ solutionBoards n := by
    intro qs
    constructor
    · intro hq
      have hcomp := gen_sound (n + 1) (emptySolver (n : Int)) 0 evs s' hInv hBelow0
        (Or.inl (by show ((0 : Nat) : Int) ≤ (n : Int); push_cast; omega)) hrun qs hq
      rw [solutionBoards_mem]
      exact hcomp.1
    · intro hb
      have hV := (solutionBoards_mem n qs).mp hb
      refine gen_complete (n + 1) (emptySolver (n : Int)) 0 evs s' qs hInv hBelow0
        (by show ((0 : Nat) : Int) ≤ (n : Int); push_cast; omega) hrun ⟨hV, ?_⟩
      intro r c hg hc
      rw [show (emptySolver (n : Int)).queens = List.replicate (n : Int).toNat (-1) from rfl,
        replicate_get?] at hg
      split at hg
      · cases hg; exact absurd rfl hc
      · cases hg
  have hnd1 : (solsOf evs).Nodup :=
    gen_nodup (n + 1) (emptySolver (n : Int)) 0 evs s' hInv hBelow0
      (Or.inl (by show ((0 : Nat) : Int) ≤ (n : Int); push_cast; omega)) hrun
  have hnd2 := solutionBoards_nodup n
  have hfs : (solsOf evs).toFinset = (solutionBoards n).toFinset := by
    apply Finset.ext
    intro qs
    rw [List.mem_toFinset, List.mem_toFinset]
    exact hmem qs
  rw [hcount, nQueensCount]
  calc (solsOf evs).length = (solsOf evs).toFinset.card :=
        (List.toFinset_card_of_nodup hnd1).symm
    _ = (solutionBoards n).toFinset.card := by rw [hfs]
    _ = (solutionBoards n).length := List.toFinset_card_of_nodup hnd2

/-! ## Auxiliary facts for the claims -/

theorem seedPlace_isSome : ∀ (seed : List (Int × Int)) (s : NQueenSolver),
    (seedPlace s seed).isSome = true ↔
      ∀ p ∈ seed, -(s.queens.length : Int) ≤ p.1 ∧ p.1 < (s.queens.length : Int) := by
  intro seed
  induction seed with
  | nil =>
    intro s
    constructor
    · intro _ p hp
      cases hp
    · intro _
      rfl
  | cons p rest ih =>
    intro s
    obtain ⟨r, c⟩ := p
    simp only [seedPlace]
    cases hp : place_queen s r c with
    | none =>
      have hidx : ¬(-(s.queens.length : Int) ≤ r ∧ r < (s.queens.length : Int)) := by
        intro hb
        have h1 : (place_queen s r c).isSome = true := by
          rw [place_queen_isSome, pyIdx_isSome_iff]
          exact hb
        rw [hp] at h1
        cases h1
      constructor
      · intro hf
        cases hf
      · intro hall
        exact absurd (hall (r, c) (List.mem_cons_self _ _)) hidx
    | some s1 =>
      have hidx : -(s.queens.length : Int) ≤ r ∧ r < (s.queens.length : Int) := by
        rw [← pyIdx_isSome_iff, ← place_queen_isSome s r c, hp]
        rfl
      have hlen : s1.queens.length = s.queens.length := place_queen_len s r c s1 hp
      constructor
      · intro hf p2 hp2
        rcases List.mem_cons.mp hp2 with he | he
        · rw [he]
          exact hidx
        · have := (ih s1).mp hf p2 he
          rw [hlen] at this
          exact this
      · intro hall
        refine (ih s1).mpr ?_
        intro p2 hp2
        rw [hlen]
        exact hall p2 (List.mem_cons_of_mem _ hp2)

theorem construct_len (n : Int) (seed : List (Int × Int)) (s0 : NQueenSolver)
    (h : construct n seed = some s0) : s0.N = n ∧ s0.queens.length = n.toNat := by
  obtain ⟨hN, hlen⟩ := seedPlace_N_len seed (emptySolver n) s0 h
  refine ⟨hN, ?_⟩
  rw [hlen]
  exact List.length_replicate n.toNat (-1)

/-! ## The claims -/

/-- C1 (counterexample): the seed `[(0,0), (1,0)]` puts two queens in
column 0, so the second pair is unsafe relative to the first
(`is_safe` on the intermediate state is `false`), yet
`NQueenSolver(2, [(0,0),(1,0)])` succeeds and a solver object is created;
no `UnsafeSeed` failure occurs.  This refutes the claim that construction
fails whenever some seed pair is unsafe. -/
theorem C1_counterexample :
    construct 2 [(0, 0)] = some ⟨2, {0}, {0}, {0}, [0, -1]⟩ ∧
    is_safe ⟨2, {0}, {0}, {0}, [0, -1]⟩ 1 0 = false ∧
    (construct 2 [(0, 0), (1, 0)]).isSome = true := by
  refine ⟨?_, ?_, ?_⟩ <;> decide

/-- C1 (amended): construction never validates the seed.
`NQueenSolver(n, seed)` succeeds if and only if every seed row is a valid
Python index into the length-`max(n,0)` queens list (i.e. lies in
`[-max(n,0), max(n,0))`); pair safety, row repetition and column bounds
are never checked, and a search object is created even from an unsafe
seed. -/
theorem C1_construct_no_validation (n : Int) (seed : List (Int × Int)) :
    (construct n seed).isSome = true ↔
      ∀ p ∈ seed, -(n.toNat : Int) ≤ p.1 ∧ p.1 < (n.toNat : Int) := by
  rw [construct, seedPlace_isSome seed (emptySolver n)]
  have hlen : (emptySolver n).queens.length = n.toNat :=
    List.length_replicate n.toNat (-1)
  rw [hlen]

/-- C1 (witness): the amended theorem applied to the unsafe seed
`[(0,0), (1,0)]` on a 2×2 board. -/
theorem C1_witness : (construct 2 [((0 : Int), (0 : Int)), (1, 0)]).isSome = true :=
  (C1_construct_no_validation 2 [(0, 0), (1, 0)]).mpr (by decide)

/-- C2 (counterexample): `NQueenSolver(-1)` does not fail with
`InvalidSize` — construction succeeds and returns a solver whose queens
list is empty (`[-1] * -1 == []` in Python).  This refutes the claim that
negative board sizes are rejected at construction time. -/
theorem C2_counterexample :
    construct (-1) [] = some (emptySolver (-1)) ∧ (emptySolver (-1)).queens = [] := by
  exact ⟨rfl, rfl⟩

/-- C2 (amended): no `InvalidSize` check exists.  For every `n < 0`,
construction succeeds (with an empty queens list), and the resulting
search terminates immediately producing no events at all (not even a
`solution` event). -/
theorem C2_negative_size_accepted (n : Int) (h : n < 0) :
    construct n [] = some (emptySolver n) ∧
    solve_generator 1 (emptySolver n) 0 = some ([], emptySolver n) := by
  refine ⟨rfl, ?_⟩
  rw [show (1 : Nat) = 0 + 1 from rfl, solve_generator_succ]
  have hN : (emptySolver n).N = n := rfl
  rw [hN]
  have h1 : nextEmpty n (emptySolver n).queens 0 = some 0 := by
    rw [nextEmpty_eq, if_neg]
    show ¬(((0 : Nat) : Int) < n)
    push_cast
    omega
  rw [h1, Option.some_bind, if_neg (show ¬(((0 : Nat) : Int) = n) by push_cast; omega)]
  rw [colsRange_nil n (by omega), solveCols_nil]

/-- C2 (witness): the amended theorem at `n = -1`. -/
theorem C2_witness : (-1 : Int) < 0 ∧
    (construct (-1) [] = some (emptySolver (-1)) ∧
      solve_generator 1 (emptySolver (-1)) 0 = some ([], emptySolver (-1))) :=
  ⟨by decide, C2_negative_size_accepted (-1) (by decide)⟩

/-- C3: for every `N ≥ 1` the number of `solution` events in the complete
event sequence of an unseeded search equals the known N-queens solution
count (formalised as the brute-force enumeration `nQueensCount`), and in
particular the counts for `N = 1, 2, 3, 4` are `1, 0, 0, 2`. -/
theorem C3_solution_counts :
    (∀ n : Nat, 1 ≤ n → solutionCount n = nQueensCount n) ∧
    solutionCount 1 = 1 ∧ solutionCount 2 = 0 ∧ solutionCount 3 = 0 ∧ solutionCount 4 = 2 :=
  ⟨fun n _ => count_eq n, by decide, by decide, by decide, by decide⟩

/-- C3 (witness): the universal part applied at `N = 5`. -/
theorem C3_witness : 1 ≤ 5 ∧ solutionCount 5 = nQueensCount 5 :=
  ⟨by decide, C3_solution_counts.1 5 (by decide)⟩

/-- C4: for every board size and every seed accepted by construction, the
complete event sequence of `solve_generator` is exactly the one produced
by the recursive specification of section 4.2 (`specSearch`): select the
globally smallest empty row, try columns in increasing order, emit
`place`, the sub-search's events, then `remove`, and emit `solution` for
a full assignment.  The sequences agree for every fuel bound, so the
event order (including solution discovery order) is deterministic and
matches the spec's ordering exactly. -/
theorem C4_matches_spec_order (n : Int) (seed : List (Int × Int)) (s : NQueenSolver)
    (fuel : Nat) (h : construct n seed = some s) :
    solve_generator fuel s 0 = specSearch fuel s := by
  obtain ⟨hN, hlen⟩ := construct_len n seed s h
  exact gen_spec_eq fuel s 0 (by rw [hlen, hN]) (fun rr hrr => absurd hrr (Nat.not_lt_zero rr))

/-- C4 (witness): the theorem at `N = 4`, seed `[(0,1)]`, fuel 5. -/
theorem C4_witness :
    solve_generator 5 (⟨4, {1}, {-1}, {1}, [1, -1, -1, -1]⟩ : NQueenSolver) 0 =
      specSearch 5 ⟨4, {1}, {-1}, {1}, [1, -1, -1, -1]⟩ :=
  C4_matches_spec_order 4 [(0, 1)] _ 5 (by decide)

/-- C5: for every board size, every seed accepted by the spec's
validation, and every `solution` snapshot emitted by the search, the
snapshot is internally conflict-free: it has length `N` with no empty
sentinel, no two rows share a column, and no two rows share either
diagonal. -/
theorem C5_solutions_conflict_free (n : Int) (seed : List (Int × Int)) (s0 : NQueenSolver)
    (fuel : Nat) (evs : List Ev) (s' : NQueenSolver) (qs : List Int)
    (hseed : seedSafe (emptySolver n) seed = true)
    (hC : construct n seed = some s0)
    (hrun : solve_generator fuel s0 0 = some (evs, s'))
    (hsol : Ev.solution qs ∈ evs) :
    SolutionOK n qs := by
  have hInv := construct_inv n seed s0 hseed hC
  have hN0 : s0.N = n := (construct_len n seed s0 hC).1
  have hq : qs ∈ solsOf evs := by
    rw [solsOf, List.mem_filterMap]
    exact ⟨Ev.solution qs, hsol, rfl⟩
  have hcomp := gen_sound fuel s0 0 evs s' hInv
    (fun rr hrr => absurd hrr (Nat.not_lt_zero rr))
    (by show ((0 : Nat) : Int) ≤ s0.N ∨ s0.N ≤ 0; omega) hrun qs hq
  have hV : ValidFull n qs := by
    rw [← hN0]
    exact hcomp.1
  obtain ⟨hlen, hent, hpair⟩ := hV
  refine ⟨hlen, ?_, hpair⟩
  intro c hc
  obtain ⟨r, hg⟩ := List.mem_iff_get?.mp hc
  have := hent r c hg
  omega

/-- C5 (witness): the theorem at `N = 1`, empty seed, fuel 2, applied to
the single emitted solution `[0]`. -/
theorem C5_witness : SolutionOK 1 [0] :=
  C5_solutions_conflict_free 1 [] (emptySolver 1) 2
    [Ev.place 0 0, Ev.solution [0], Ev.remove 0 0] (emptySolver 1) [0]
    (by decide) (by decide) (by decide) (by decide)

/-- C6: in the complete event trace of any search run from row 0,
placements and removals follow stack discipline: processing the trace
with a stack (push on `place`, pop on a matching `remove`, reject a
mismatched `remove`) succeeds and ends with an empty stack, so every
`place (r,c)` is matched by exactly one later `remove (r,c)` in
last-placed-first-removed order and nothing remains placed at the end. -/
theorem C6_stack_discipline (fuel : Nat) (s : NQueenSolver) (evs : List Ev)
    (s' : NQueenSolver) (h : solve_generator fuel s 0 = some (evs, s')) :
    runBal [] evs = some [] :=
  gen_bal fuel s 0 evs s' h []

/-- C6 (witness): the theorem on the complete `N = 1` trace. -/
theorem C6_witness : runBal [] [Ev.place 0 0, Ev.solution [0], Ev.remove 0 0] = some [] :=
  C6_stack_discipline 2 (emptySolver 1) _ (emptySolver 1) (by decide)

/-- C7 (counterexample): for `N = 4` with seed `[(0,1)]` the complete
event sequence does contain exactly one `solution` event with snapshot
`[1,3,0,2]`, but the sequence does not end there: the last event of the
sequence is `remove 1 3`, i.e. three backtracking `remove` events follow
the `solution` event.  This refutes the claim that the sequence "then
ends with no further events". -/
theorem C7_counterexample :
    runFromSeed 4 [(0, 1)] 5 = some [Ev.place 1 3, Ev.place 2 0, Ev.place 3 2,
      Ev.solution [1, 3, 0, 2], Ev.remove 3 2, Ev.remove 2 0, Ev.remove 1 3] ∧
    solsOf [Ev.place 1 3, Ev.place 2 0, Ev.place 3 2, Ev.solution [1, 3, 0, 2],
      Ev.remove 3 2, Ev.remove 2 0, Ev.remove 1 3] = [[1, 3, 0, 2]] ∧
    [Ev.place 1 3, Ev.place 2 0, Ev.place 3 2, Ev.solution [1, 3, 0, 2],
      Ev.remove 3 2, Ev.remove 2 0, Ev.remove 1 3].getLast? = some (Ev.remove 1 3) := by
  refine ⟨?_, ?_, ?_⟩ <;> decide

/-- C7 (amended): for `N = 4` with seed `[(0,1)]` the complete event
sequence contains exactly one `solution` event, whose snapshot is
`[1,3,0,2]`; the solution is followed by the three unwinding events
`remove (3,2)`, `remove (2,0)`, `remove (1,3)`, after which the sequence
ends with no further events. -/
theorem C7_seeded_trace :
    runFromSeed 4 [(0, 1)] 5 = some [Ev.place 1 3, Ev.place 2 0, Ev.place 3 2,
      Ev.solution [1, 3, 0, 2], Ev.remove 3 2, Ev.remove 2 0, Ev.remove 1 3] := by
  decide

/-- C8 (counterexample): the per-row "if and only if" fails.  The state
below is reachable by three `place_queen` calls under their preconditions
(queens at `(1,0)`, `(3,1)`, `(0,2)` on a 4×4 board); for row 2 and
column 0 the right-hand side holds — `0 ∈ cols`, `2-0 ∈ diag1`,
`2+0 ∈ diag2` (each key contributed by a different queen) — yet
`assignment[2]` is the empty sentinel, not 0. -/
theorem C8_counterexample :
    Reach (⟨4, {2, 1, 0}, {-2, 2, 1}, {2, 4, 1}, [2, 0, -1, 1]⟩ : NQueenSolver) ∧
    (0 : Int) ∈ (⟨4, {2, 1, 0}, {-2, 2, 1}, {2, 4, 1}, [2, 0, -1, 1]⟩ : NQueenSolver).cols ∧
    ((2 : Int) - 0) ∈
      (⟨4, {2, 1, 0}, {-2, 2, 1}, {2, 4, 1}, [2, 0, -1, 1]⟩ : NQueenSolver).diag1 ∧
    ((2 : Int) + 0) ∈
      (⟨4, {2, 1, 0}, {-2, 2, 1}, {2, 4, 1}, [2, 0, -1, 1]⟩ : NQueenSolver).diag2 ∧
    pyGet (⟨4, {2, 1, 0}, {-2, 2, 1}, {2, 4, 1}, [2, 0, -1, 1]⟩ : NQueenSolver).queens 2 =
      some (-1) ∧
    pyGet (⟨4, {2, 1, 0}, {-2, 2, 1}, {2, 4, 1}, [2, 0, -1, 1]⟩ : NQueenSolver).queens 2 ≠
      some 0 := by
  refine ⟨?_, by decide, by decide, by decide, by decide, by decide⟩
  have h1 : Reach (emptySolver 4) := Reach.init 4
  have h2 : Reach (⟨4, {0}, {1}, {1}, [-1, 0, -1, -1]⟩ : NQueenSolver) :=
    Reach.place (emptySolver 4) _ 1 0 h1 (by decide) (by decide) (by decide) (by decide)
      (by decide) (by decide) (by decide)
  have h3 : Reach (⟨4, {1, 0}, {2, 1}, {4, 1}, [-1, 0, -1, 1]⟩ : NQueenSolver) :=
    Reach.place _ _ 3 1 h2 (by decide) (by decide) (by decide) (by decide)
      (by decide) (by decide) (by decide)
  exact Reach.place _ _ 0 2 h3 (by decide) (by decide) (by decide) (by decide)
    (by decide) (by decide) (by decide)

/-- C8 (amended): in every state reachable by construction, `place` and
`remove` under their preconditions, the lockstep property holds in the
direction the data model states it: every placed queen `assignment[r] = c`
has `c ∈ cols`, `r-c ∈ diag1` and `r+c ∈ diag2`, and every element of
each of the three sets corresponds to exactly one currently placed queen.
(The converse per-row "iff" is refuted by `C8_counterexample`.) -/
theorem C8_lockstep (s : NQueenSolver) (h : Reach s) : LockStep s := by
  have hInv := reach_inv s h
  exact ⟨hInv.fwd, hInv.colsU, hInv.diag1U, hInv.diag2U⟩

/-- C8 (witness): the lockstep property at the freshly constructed empty
2×2 board. -/
theorem C8_witness : LockStep (emptySolver 2) :=
  C8_lockstep (emptySolver 2) (Reach.init 2)

/-- C9 (counterexample): neither operation checks its precondition.
Placing at row 0 of a board whose row 0 already holds a queen returns
normally and silently overwrites the assignment (leaving the old column
still recorded in the sets); removing `(1,1)` from a board whose row 1 is
empty (built by three unchecked placements) also returns normally and
silently updates the three sets.  No `InvariantViolation` abort exists. -/
theorem C9_counterexample :
    place_queen (emptySolver 4) 0 0 = some ⟨4, {0}, {0}, {0}, [0, -1, -1, -1]⟩ ∧
    place_queen (⟨4, {0}, {0}, {0}, [0, -1, -1, -1]⟩ : NQueenSolver) 0 1 =
      some ⟨4, {1, 0}, {-1, 0}, {1, 0}, [1, -1, -1, -1]⟩ ∧
    construct 4 [(0, 0), (2, 0), (3, 1)] =
      some ⟨4, {1, 0}, {2, 0}, {4, 2, 0}, [0, -1, 0, 1]⟩ ∧
    remove_queen (⟨4, {1, 0}, {2, 0}, {4, 2, 0}, [0, -1, 0, 1]⟩ : NQueenSolver) 1 1 =
      some ⟨4, {0}, {2}, {4, 0}, [0, -1, 0, 1]⟩ := by
  refine ⟨?_, ?_, ?_, ?_⟩ <;> decide

/-- C9 (amended): `place_queen` and `remove_queen` perform no
state-precondition checks.  `place_queen` succeeds whenever the row index
is a valid list index, regardless of whether the row is empty;
`remove_queen` succeeds whenever the row index is valid and the three
keys happen to be present in the sets, regardless of whether
`assignment[r] = c`.  The only failures are Python `IndexError`/`KeyError`
conditions, never an `InvariantViolation`. -/
theorem C9_no_precondition_checks :
    (∀ (s : NQueenSolver) (r c : Int), (pyIdx s.queens.length r).isSome = true →
      (place_queen s r c).isSome = true) ∧
    (∀ (s : NQueenSolver) (r c : Int), (pyIdx s.queens.length r).isSome = true →
      c ∈ s.cols → (r - c) ∈ s.diag1 → (r + c) ∈ s.diag2 →
      (remove_queen s r c).isSome = true) := by
  constructor
  · intro s r c h
    rw [place_queen_isSome]
    exact h
  · intro s r c h h1 h2 h3
    obtain ⟨j, hj⟩ := Option.isSome_iff_exists.mp h
    rw [remove_queen, pySet, hj]
    show (if c ∈ s.cols then
        if (r - c) ∈ s.diag1 then
          if (r + c) ∈ s.diag2 then
            some (⟨s.N, s.cols.erase c, s.diag1.erase (r - c), s.diag2.erase (r + c),
              s.queens.set j (-1)⟩ : NQueenSolver)
          else none
        else none
      else none).isSome = true
    rw [if_pos h1, if_pos h2, if_pos h3]
    rfl

/-- C9 (witness): the amended theorem applied to a place on a non-empty
row and to a mismatched remove. -/
theorem C9_witness :
    (place_queen (⟨4, {0}, {0}, {0}, [0, -1, -1, -1]⟩ : NQueenSolver) 0 1).isSome = true ∧
    (remove_queen (⟨4, {1, 0}, {2, 0}, {4, 2, 0}, [0, -1, 0, 1]⟩ : NQueenSolver) 1 1).isSome
      = true :=
  ⟨C9_no_precondition_checks.1 _ 0 1 (by decide),
    C9_no_precondition_checks.2 _ 1 1 (by decide) (by decide) (by decide) (by decide)⟩

/-- C10: once the event sequence of a search is exhausted, the board state
equals exactly its state at construction time after seeding (every queen
placed by the search has been removed and the seeded queens are still
present), and no `remove` event is ever emitted for a row that was seeded
at construction (seeded columns being non-negative, i.e. actual queens). -/
theorem C10_state_restored (n : Int) (seed : List (Int × Int)) (s0 : NQueenSolver)
    (fuel : Nat) (evs : List Ev) (s' : NQueenSolver)
    (hC : construct n seed = some s0)
    (hcols : ∀ p ∈ seed, (0 : Int) ≤ p.2)
    (hrun : solve_generator fuel s0 0 = some (evs, s')) :
    s' = s0 ∧ NoSeedRemoves seed evs := by
  constructor
  · exact gen_restore fuel s0 0 evs s'
      (by show ((0 : Nat) : Int) ≤ s0.N ∨ s0.N ≤ 0; omega) hrun
  · intro r c hmem c' hrem
    obtain ⟨v, hvg, hv⟩ := seedPlace_mem_filled seed (emptySolver n) s0 hC hcols r c hmem
    have hrm := gen_removes fuel s0 0 evs s'
      (by show ((0 : Nat) : Int) ≤ s0.N ∨ s0.N ≤ 0; omega) hrun r c' hrem
    rw [hvg] at hrm
    have := Option.some.inj hrm
    omega

/-- C10 (witness): the theorem on the seeded `N = 4` example: the final
state equals the seeded state and no remove event touches row 0. -/
theorem C10_witness :
    (⟨4, {1}, {-1}, {1}, [1, -1, -1, -1]⟩ : NQueenSolver) =
      ⟨4, {1}, {-1}, {1}, [1, -1, -1, -1]⟩ ∧
    NoSeedRemoves [((0 : Int), (1 : Int))] [Ev.place 1 3, Ev.place 2 0, Ev.place 3 2,
      Ev.solution [1, 3, 0, 2], Ev.remove 3 2, Ev.remove 2 0, Ev.remove 1 3] :=
  C10_state_restored 4 [(0, 1)] _ 5 _ _ (by decide) (by decide) (by decide)
